import Mathlib

/-!
Shallow embedding of the IR learned-code store of
`main/boards/xingzhi-cube-1.54tft-wifi/ir_receiver.cc` (with the
`self.ir.save_code` response of `main/boards/zhengchen-1.54tft-wifi/zhengchen-1.54tft-wifi.cc`
and the `self.ir.learn_command` tool of
`main/boards/xingzhi-cube-1.54tft-wifi/xingzhi-cube-1.54tft-wifi.cc`).

C++ `std::string` values are embedded as `List Char`; the NVS namespace
`"ir_codes"` behind the `Settings` class is embedded as an association list
from key to value with in-place update.  Unsigned machine integers carry no
arithmetic in the modelled code paths, so they are embedded as plain `Nat`
(and `decode_type_t`, which is a C `int` enum with `UNKNOWN = -1`, as `Int`).
-/

set_option maxHeartbeats 1000000

namespace IrCodes

/-- The persisted NVS namespace: key-value pairs, unique keys by construction. -/
abbrev Store := List (List Char × List Char)

/-- Settings::GetString — value of a key, or the supplied default when absent. -/
def getString : Store → List Char → List Char → List Char
  | [], _, d => d
  | (k', v) :: rest, k, d => if k' = k then v else getString rest k d

/-- Settings::SetString — replace the value of an existing key in place, or
append the pair when the key is new. -/
def setString : Store → List Char → List Char → Store
  | [], k, v => [(k, v)]
  | (k', v') :: rest, k, v =>
    if k' = k then (k, v) :: rest else (k', v') :: setString rest k v

/-- Settings::EraseKey — remove the key (and any duplicates of it). -/
def eraseKey : Store → List Char → Store
  | [], _ => []
  | (k', v') :: rest, k =>
    if k' = k then eraseKey rest k else (k', v') :: eraseKey rest k

/-- The manual comma-splitting loop that SaveLearnedCode, SaveRawCode,
DeleteLearnedCode, GetLearnedCodes and ExportAsConstants all repeat
(`find(',')` / `substr` / `pos = comma_pos + 1`).  A trailing comma produces
no final empty token, because the loop condition `pos < length` fails. -/
def splitTokens : List Char → List (List Char)
  | [] => []
  | c :: cs =>
    if c = ',' then [] :: splitTokens cs
    else
      match splitTokens cs with
      | [] => [[c]]
      | t :: ts => (c :: t) :: ts

/-- Comma-joining of a token list, as produced by the `+= ","` / `+= name`
appends in the source. -/
def joinComma : List (List Char) → List Char
  | [] => []
  | [t] => t
  | t :: ts => t ++ ',' :: joinComma ts

/-- `MAX_IR_CODES` from ir_receiver.h. -/
def maxIrCodes : Nat := 100

/-- The 10-byte name budget (`max_name_length`): NVS keys are limited to 15
characters and the `code_` prefix takes 5. -/
def truncName (n : List Char) : List Char :=
  if n.length > 10 then n.take 10 else n

/-- Decimal digit character (the digits printed by snprintf `%d` / `%llu` and
`std::to_string`). -/
def digitCh : Nat → Char
  | 0 => '0'
  | 1 => '1'
  | 2 => '2'
  | 3 => '3'
  | 4 => '4'
  | 5 => '5'
  | 6 => '6'
  | 7 => '7'
  | 8 => '8'
  | _ => '9'

/-- Decimal rendering core, structurally recursive on a fuel bound: any fuel
above the value is enough, as the value shrinks tenfold per digit. -/
def natReprGo : Nat → Nat → List Char
  | 0, _ => []
  | Nat.succ fuel, n =>
    if n < 10 then [digitCh n] else natReprGo fuel (n / 10) ++ [digitCh (n % 10)]

/-- Decimal rendering of an unsigned value (`std::to_string`, printf `%llu`). -/
def natRepr (n : Nat) : List Char := natReprGo (n + 1) n

/-- Decimal rendering of a signed value (printf `%d`). -/
def intRepr (p : Int) : List Char :=
  if p < 0 then '-' :: natRepr (-p).toNat else natRepr p.toNat

/-- Decimal digit test used by the scanning direction. -/
def isDigitCh (c : Char) : Bool := decide (48 ≤ c.toNat ∧ c.toNat ≤ 57)

/-- Value of a digit run, accumulated left to right. -/
def digitsVal (a : Nat) (ds : List Char) : Nat :=
  ds.foldl (fun x c => x * 10 + (c.toNat - 48)) a

/-- sscanf `%llu` / `%hu` / `std::stoul`: consume a nonempty run of decimal
digits, returning the value and the unconsumed rest. -/
def parseNatFrom (s : List Char) : Option (Nat × List Char) :=
  let ds := s.takeWhile isDigitCh
  if ds.isEmpty then none else some (digitsVal 0 ds, s.dropWhile isDigitCh)

/-- sscanf `%d`: optional minus sign, then a digit run. -/
def parseIntFrom (s : List Char) : Option (Int × List Char) :=
  match s with
  | [] => none
  | c :: rest =>
    if c = '-' then
      match parseNatFrom rest with
      | some (n, r) => some (-(n : Int), r)
      | none => none
    else
      match parseNatFrom (c :: rest) with
      | some (n, r) => some ((n : Int), r)
      | none => none

/-- sscanf literal matching: strip an exact expected prefix. -/
def dropLit : List Char → List Char → Option (List Char)
  | [], s => some s
  | _ :: _, [] => none
  | e :: es, c :: cs => if c = e then dropLit es cs else none

/-- Key of the index list. -/
def idxKey : List Char := "code_list".data

/-- Prefix of protocol-record keys. -/
def codePfx : List Char := "code_".data

/-- Prefix of raw-record keys. -/
def rawPfx : List Char := "raw_".data

/-- The name whose protocol-record key collides with the index key. -/
def listTok : List Char := "list".data

def litProtocol : List Char := "\"protocol\":".data

def litValue : List Char := "\"value\":".data

def litBits : List Char := "\"bits\":".data

/-- SaveLearnedCode's record serialization:
`snprintf("{\"protocol\":%d,\"value\":%llu,\"bits\":%d}", protocol, value, bits)`
(64 formatted characters at most, so the 128-byte buffer never truncates). -/
def serializeCode (p : Int) (v : Nat) (b : Nat) : List Char :=
  '{' :: litProtocol ++ intRepr p
    ++ ',' :: litValue ++ natRepr v
    ++ ',' :: litBits ++ natRepr b ++ [ '}' ]

/-- SendLearnedCode's sscanf parse of a stored record.  sscanf reports the
number of converted fields and the caller checks `== 3`, so input after the
`bits` digits (including the closing brace) is not examined. -/
def parseCodeValue (s : List Char) : Option (Int × Nat × Nat) :=
  match dropLit ('{' :: litProtocol) s with
  | none => none
  | some s1 =>
    match parseIntFrom s1 with
    | none => none
    | some (p, s2) =>
      match dropLit (',' :: litValue) s2 with
      | none => none
      | some (s3) =>
        match parseNatFrom s3 with
        | none => none
        | some (v, s4) =>
          match dropLit (',' :: litBits) s4 with
          | none => none
          | some s5 =>
            match parseNatFrom s5 with
            | none => none
            | some (b, _) => some (p, v, b)

/-- IrReceiver::SaveLearnedCode.  The record is written before the index is
consulted; the snprintf guard (`written >= sizeof(code_key)`, i.e. a key of 16
or more characters) can never fire after truncation but is kept from the
source; at capacity a genuinely new name is not added to the index, yet the
record write above has already happened. -/
def saveLearnedCode (st : Store) (name : List Char) (protocol : Int)
    (value : Nat) (bits : Nat) : Store :=
  let tn := truncName name
  if 16 ≤ 5 + tn.length then st
  else
    let codeKey := codePfx ++ tn
    let st1 := setString st codeKey (serializeCode protocol value bits)
    let codeList := getString st1 idxKey []
    let toks := splitTokens codeList
    let codeCount := (toks.filter (fun t => !t.isEmpty)).length
    let nameExists := toks.any (fun t => truncName t == tn)
    if nameExists = false ∧ maxIrCodes ≤ codeCount then st1
    else if nameExists = false then
      setString st1 idxKey (if codeList.isEmpty then tn else codeList ++ ',' :: tn)
    else st1

/-- The stored raw-record string `"<len>:<d0>,<d1>,...,<dN-1>"` built by
SaveRawCode. -/
def rawSerialize (rawData : List Nat) : List Char :=
  natRepr rawData.length ++ ':' :: joinComma (rawData.map natRepr)

/-- IrReceiver::SaveRawCode.  A null data pointer or zero length is embedded
as the empty list; the serialized string is rejected above 3900 bytes before
anything is written; the index append performs no capacity check.  The
`raw_%s` snprintf guard (key of 256 or more characters) is kept from the
source although it cannot fire after truncation. -/
def saveRawCode (st : Store) (name : List Char) (rawData : List Nat) : Store :=
  if rawData.isEmpty then st
  else
    let tn := truncName name
    if 256 ≤ 4 + tn.length then st
    else
      let rawStr := rawSerialize rawData
      if 3900 < rawStr.length then st
      else
        let st1 := setString st (rawPfx ++ tn) rawStr
        let codeList := getString st1 idxKey []
        let nameExists := (splitTokens codeList).any (fun t => truncName t == tn)
        if nameExists = false then
          setString st1 idxKey (if codeList.isEmpty then tn else codeList ++ ',' :: tn)
        else st1

/-- IrReceiver::DeleteLearnedCode: erase whichever of the two records exists,
returning false when neither does, then rebuild the index without the matching
tokens (dropping empty tokens), erasing the index key outright when the rebuilt
list is empty. -/
def deleteLearnedCode (st : Store) (name : List Char) : Bool × Store :=
  let tn := truncName name
  if 16 ≤ 5 + tn.length then (false, st)
  else
    let codeKey := codePfx ++ tn
    let rawKey := rawPfx ++ tn
    let codeVal := getString st codeKey []
    let rawVal := getString st rawKey []
    if codeVal.isEmpty && rawVal.isEmpty then (false, st)
    else
      let st1 := if codeVal.isEmpty then st else eraseKey st codeKey
      let st2 := if rawVal.isEmpty then st1 else eraseKey st1 rawKey
      let codeList := getString st2 idxKey []
      if codeList.isEmpty then (true, st2)
      else
        let toks := splitTokens codeList
        let kept := toks.filter (fun t => !(truncName t == tn) && !t.isEmpty)
        let found := toks.any (fun t => truncName t == tn)
        if found = false then (true, st2)
        else if kept.isEmpty then (true, eraseKey st2 idxKey)
        else (true, setString st2 idxKey (joinComma kept))

/-- The tokens of the current `code_list` index string. -/
def indexTokens (st : Store) : List (List Char) :=
  splitTokens (getString st idxKey [])

/-- The names GetLearnedCodes renders into its JSON: nonempty index tokens,
small enough for the 256-byte key buffer, whose protocol record or raw record
is present (tokens with no backing record are skipped, not errors). -/
def listedNames (st : Store) : List (List Char) :=
  (indexTokens st).filter (fun t =>
    !t.isEmpty && decide (5 + t.length < 256) &&
      (!(getString st (codePfx ++ t) []).isEmpty
        || !(getString st (rawPfx ++ t) []).isEmpty))

/-- The record lookup shared by Load-style operations (SendLearnedCode /
SendLearnedRawCode key derivation): does the truncated name own a protocol
record or a raw record? -/
def loadFound (st : Store) (name : List Char) : Bool :=
  let tn := truncName name
  !(getString st (codePfx ++ tn) []).isEmpty
    || !(getString st (rawPfx ++ tn) []).isEmpty

/-- The comma-separated value loop of SendLearnedRawCode: fill up to the
declared capacity, skipping empty tokens, failing the whole operation when
`std::stoul` throws on a token with no leading digit. -/
def parseRawLoop : List (List Char) → Nat → Option (List Nat)
  | _, 0 => some []
  | [], _ => some []
  | t :: ts, Nat.succ k =>
    if t.isEmpty then parseRawLoop ts (Nat.succ k)
    else
      match parseNatFrom t with
      | none => none
      | some (v, _) =>
        match parseRawLoop ts k with
        | none => none
        | some vs => some (v :: vs)

/-- SendLearnedRawCode's parse of a stored raw record: split at the first
colon, `std::stoul` the length (rejecting 0 and anything above 1000), then
run the value loop. -/
def parseRawValue (s : List Char) : Option (List Nat) :=
  let pre := s.takeWhile (fun c => !(c == ':'))
  match s.dropWhile (fun c => !(c == ':')) with
  | [] => none
  | _ :: vals =>
    match parseNatFrom pre with
    | none => none
    | some (len, _) =>
      if len = 0 ∨ 1000 < len then none
      else parseRawLoop (splitTokens vals) len

/-- The raw-record half of a load: SendLearnedRawCode fails on a missing
record, a malformed record, or zero parsed durations (SendRawCode rejects a
zero length); otherwise it replays the parsed durations. -/
def loadRawRecord (st : Store) (tn : List Char) : Option ((Int × Nat × Nat) ⊕ List Nat) :=
  match parseRawValue (getString st (rawPfx ++ tn) []) with
  | none => none
  | some d => if d.isEmpty then none else some (Sum.inr d)

/-- The load operation realized by SendLearnedCode: the protocol record takes
precedence when present and parseable, otherwise the raw record is the
fallback; neither record means not found.  Transmission hardware is out of
scope: a parsed record counts as loaded. -/
def loadLearnedCode (st : Store) (name : List Char) :
    Option ((Int × Nat × Nat) ⊕ List Nat) :=
  let tn := truncName name
  let cv := getString st (codePfx ++ tn) []
  if cv.isEmpty then loadRawRecord st tn
  else
    match parseCodeValue cv with
    | some trip => some (Sum.inl trip)
    | none => loadRawRecord st tn

/-- Lowercase hexadecimal digit (snprintf `%04x`). -/
def hexCh : Nat → Char
  | 0 => '0'
  | 1 => '1'
  | 2 => '2'
  | 3 => '3'
  | 4 => '4'
  | 5 => '5'
  | 6 => '6'
  | 7 => '7'
  | 8 => '8'
  | 9 => '9'
  | 10 => 'a'
  | 11 => 'b'
  | 12 => 'c'
  | 13 => 'd'
  | 14 => 'e'
  | _ => 'f'

/-- EscapeJsonString, per input character: quote, backslash and the five named
control characters get two-character escapes, the remaining control characters
below 0x20 get `\u00XX`, everything else passes through. -/
def escapeJsonChar (c : Char) : List Char :=
  if c = '"' then [ '\\', '"' ]
  else if c = '\\' then [ '\\', '\\' ]
  else if c = Char.ofNat 8 then [ '\\', 'b' ]
  else if c = Char.ofNat 12 then [ '\\', 'f' ]
  else if c = Char.ofNat 10 then [ '\\', 'n' ]
  else if c = Char.ofNat 13 then [ '\\', 'r' ]
  else if c = Char.ofNat 9 then [ '\\', 't' ]
  else if c.toNat < 32 then
    '\\' :: 'u' :: '0' :: '0' :: [hexCh (c.toNat / 16), hexCh (c.toNat % 16)]
  else [c]

/-- EscapeJsonString: the per-character escapes concatenated in order. -/
def escapeJsonString (s : List Char) : List Char :=
  (s.map escapeJsonChar).flatten

/-- Value of a lowercase/uppercase hexadecimal digit character. -/
def hexVal (c : Char) : Nat :=
  if 48 ≤ c.toNat ∧ c.toNat ≤ 57 then c.toNat - 48
  else if 97 ≤ c.toNat ∧ c.toNat ≤ 102 then c.toNat - 87
  else if 65 ≤ c.toNat ∧ c.toNat ≤ 70 then c.toNat - 55
  else 0

/-- Modelled from the spec: the reading direction of the JSON string-escape
convention (`\" \\ \b \f \n \r \t \u00XX`), used to state that
EscapeJsonString's output denotes exactly the original string. -/
def unescapeJson : List Char → Option (List Char)
  | [] => some []
  | c :: rest =>
    if c = '\\' then
      match rest with
      | [] => none
      | e :: r =>
        if e = '"' then (unescapeJson r).map (fun s => '"' :: s)
        else if e = '\\' then (unescapeJson r).map (fun s => '\\' :: s)
        else if e = 'b' then (unescapeJson r).map (fun s => Char.ofNat 8 :: s)
        else if e = 'f' then (unescapeJson r).map (fun s => Char.ofNat 12 :: s)
        else if e = 'n' then (unescapeJson r).map (fun s => Char.ofNat 10 :: s)
        else if e = 'r' then (unescapeJson r).map (fun s => Char.ofNat 13 :: s)
        else if e = 't' then (unescapeJson r).map (fun s => Char.ofNat 9 :: s)
        else if e = 'u' then
          match r with
          | a :: b :: c2 :: d :: r2 =>
            (unescapeJson r2).map (fun s =>
              Char.ofNat (hexVal a * 4096 + hexVal b * 256
                + hexVal c2 * 16 + hexVal d) :: s)
          | _ => none
        else none
    else (unescapeJson rest).map (fun s => c :: s)

def litSaveCode : List Char := "\"status\":\"success\",\"message\":\"IR code saved: ".data

/-- The `self.ir.save_code` success response of the zhengchen board tool:
`"{\"status\":\"success\",\"message\":\"IR code saved: " + name + "\"}"`.
The user-supplied name is concatenated directly. -/
def saveCodeResponse (name : List Char) : List Char :=
  '{' :: litSaveCode ++ name ++ '"' :: [ '}' ]

/-- Modelled from the spec: the save_code response as it would read if the
user-supplied name were escaped before embedding, for comparison with the
source's `saveCodeResponse`. -/
def saveCodeResponseEscaped (name : List Char) : List Char :=
  '{' :: litSaveCode ++ escapeJsonString name ++ '"' :: [ '}' ]

def litCodesHead : List Char := "\"codes\":[".data

def litCodesEmptyBody : List Char := "\"codes\":[]".data

def litEntryName : List Char := "\"name\":\"".data

def litEntryDataObj : List Char := "\",\"data\":".data

def litEntryDataStr : List Char := "\",\"data\":\"".data

def litRawWrapHead : List Char := "\"type\":\"raw\",\"data\":\"".data

/-- The JSON object GetLearnedCodes wraps around a raw record before
embedding. -/
def rawWrap (v : List Char) : List Char :=
  '{' :: litRawWrapHead ++ escapeJsonString v ++ '"' :: [ '}' ]

/-- One rendered entry of the GetLearnedCodes loop, for an index token `t`:
skipped (`none`) when the token is empty, the key would overflow, or neither
record exists; otherwise the name is embedded escaped, and the data either as
a JSON object (first character `{`) or as an escaped string. -/
def codesEntry (st : Store) (t : List Char) : Option (List Char) :=
  if t.isEmpty then none
  else if 256 ≤ 5 + t.length then none
  else
    let cv := getString st (codePfx ++ t) []
    let cv2 :=
      if cv.isEmpty then
        (let rv := getString st (rawPfx ++ t) []
         if rv.isEmpty then [] else rawWrap rv)
      else cv
    if cv2.isEmpty then none
    else if cv2.head? = some '{' then
      some ('{' :: litEntryName ++ escapeJsonString t ++ litEntryDataObj ++ cv2 ++ [ '}' ])
    else
      some ('{' :: litEntryName ++ escapeJsonString t ++ litEntryDataStr
        ++ escapeJsonString cv2 ++ '"' :: [ '}' ])

/-- IrReceiver::GetLearnedCodes: `{"codes":[]}` for an empty index, otherwise
the comma-joined rendered entries. -/
def getLearnedCodesJson (st : Store) : List Char :=
  if (getString st idxKey []).isEmpty then '{' :: litCodesEmptyBody ++ [ '}' ]
  else
    '{' :: litCodesHead
      ++ joinComma ((indexTokens st).filterMap (codesEntry st))
      ++ ']' :: [ '}' ]

/-- One decode result of the IRremoteESP8266 `decode_results` as read by
ProcessIrTask: the protocol enum (a C `int`; `UNKNOWN` is `-1`, as the
source's own comment on the validity filter records), the 64-bit value, the
bit count and the raw buffer length. -/
structure DecodeRes where
  decodeType : Int
  value : Nat
  bits : Nat
  rawlen : Nat
deriving DecidableEq

/-- `UNKNOWN` of `decode_type_t`. -/
def unknownProto : Int := -1

/-- The post-decode validity filter of ProcessIrTask: `bits > 64` or a
protocol outside `[0, 100]` marks the result invalid. -/
def irValid (r : DecodeRes) : Bool :=
  !(decide (64 < r.bits)) && !(decide (r.decodeType < 0) || decide (100 < r.decodeType))

/-- What ProcessIrTask does with one decode result (the learning callbacks are
assumed registered; generated default names are abstracted to the callback
arguments). -/
inductive IrOutcome where
  /-- Invalid result dropped (noise, or no raw data while learning). -/
  | dropped
  /-- Invalid result while learning: raw buffer copied to the raw learning
  callback. -/
  | rawLearned (rawlen : Nat)
  /-- Valid known protocol while learning: learning callback (and raw callback
  when a raw buffer exists). -/
  | protoLearned (protocol : Int) (value : Nat) (bits : Nat) (alsoRaw : Bool)
  /-- Valid known protocol outside learning mode: normal callback. -/
  | normalCb (protocol : Int) (value : Nat) (bits : Nat)
  /-- Valid UNKNOWN-protocol result saved through the learning callback. -/
  | unknownLearned (protocol : Int) (value : Nat) (bits : Nat)
  /-- UNKNOWN-protocol result ignored. -/
  | unknownSkipped
deriving DecidableEq

/-- The dispatch of ProcessIrTask over one decode result. -/
def processDecode (r : DecodeRes) (learning : Bool) : IrOutcome :=
  if irValid r = false then
    if learning then
      if 0 < r.rawlen then IrOutcome.rawLearned r.rawlen else IrOutcome.dropped
    else IrOutcome.dropped
  else if r.decodeType ≠ unknownProto then
    if learning then IrOutcome.protoLearned r.decodeType r.value r.bits (0 < r.rawlen)
    else IrOutcome.normalCb r.decodeType r.value r.bits
  else
    if learning then
      if 8 ≤ r.bits ∧ r.bits ≤ 64 ∧ r.value ≠ 0 then
        IrOutcome.unknownLearned r.decodeType r.value r.bits
      else IrOutcome.unknownSkipped
    else IrOutcome.unknownSkipped

def litTimeoutMsg : List Char := "Timeout: No IR signal received".data

def litStartFailMsg : List Char :=
  "Failed to start IR receiver - no free RMT channels. Try disabling LED or other RMT devices.".data

def litSemFailMsg : List Char := "IR learning system not properly initialized".data

def litUnknownName : List Char := "UNKNOWN".data

def litRawName : List Char := "Raw".data

/-- Environment of one `self.ir.learn_command` invocation: whether the
receiver could be started (after the retry), whether the learn semaphore was
created at initialization, and the capture event — if any — delivered through
the queue task before the wait deadline elapses.  Real time itself (the
1-second wait slices) is abstracted to the presence of that event. -/
structure LearnEnv where
  startOk : Bool
  semaphoreOk : Bool
  capture : Option (Nat × List Char × List Nat)
deriving DecidableEq

/-- The structured result the tool builds as cJSON. -/
structure LearnResult where
  success : Bool
  error : Option (List Char)
  protocol : Option (List Char)
  command : Option Nat
  rawData : List Nat
deriving DecidableEq

/-- The board state the tool and the learn task touch: the learned-command
scratch fields, the learning-active flag and the persistent code store. -/
structure BoardState where
  learnedCommand : Nat
  learnedProtocol : List Char
  learnedRawData : List Nat
  irLearningActive : Bool
  store : Store
deriving DecidableEq

/-- The `self.ir.learn_command` tool handler of the xingzhi board: reset the
scratch fields and arm; fail with the receiver or semaphore errors (dropping
back to inactive); on a capture within the deadline the queue task records the
event, clears the flag and signals, and the tool reports protocol, command (as
hex, only for an identified nonzero command) and up to 200 raw durations; with
no capture the wait times out, the flag is cleared and the timeout error is
returned.  The LED enable/disable bracketing touches no modelled state. -/
def learnCommand (_timeoutSeconds : Nat) (bs : BoardState) (env : LearnEnv) :
    LearnResult × BoardState :=
  let bs1 : BoardState :=
    { bs with learnedCommand := 0, learnedProtocol := [],
              learnedRawData := [], irLearningActive := true }
  if env.startOk = false then
    (⟨false, some litStartFailMsg, none, none, []⟩,
      { bs1 with irLearningActive := false })
  else if env.semaphoreOk = false then
    (⟨false, some litSemFailMsg, none, none, []⟩,
      { bs1 with irLearningActive := false })
  else
    match env.capture with
    | none =>
      (⟨false, some litTimeoutMsg, none, none, []⟩,
        { bs1 with irLearningActive := false })
    | some (cmd, proto, raw) =>
      (⟨true, none, some proto,
          (if proto ≠ litUnknownName ∧ proto ≠ litRawName ∧ cmd ≠ 0
            then some cmd else none),
          raw.take 200⟩,
        { bs1 with learnedCommand := cmd, learnedProtocol := proto,
                   learnedRawData := raw, irLearningActive := false })

/-- One operation against the code store. -/
inductive StoreOp where
  | save (name : List Char) (protocol : Int) (value : Nat) (bits : Nat)
  | saveRaw (name : List Char) (rawData : List Nat)
  | del (name : List Char)
deriving DecidableEq

def applyOp (st : Store) : StoreOp → Store
  | StoreOp.save n p v b => saveLearnedCode st n p v b
  | StoreOp.saveRaw n d => saveRawCode st n d
  | StoreOp.del n => (deleteLearnedCode st n).2

def applyOps : Store → List StoreOp → Store
  | st, [] => st
  | st, op :: ops => applyOps (applyOp st op) ops

/-- A name the store design admits: nonempty, free of the index separator
comma, and not truncating to the reserved token whose record key would be the
index key itself. -/
def validCodeName (n : List Char) : Prop :=
  n ≠ [] ∧ ',' ∉ n ∧ truncName n ≠ listTok

instance (n : List Char) : Decidable (validCodeName n) := by
  unfold validCodeName; infer_instance

/-- The capacity precondition SaveLearnedCode checks (stated on the pre-state,
whose index string the record write does not touch for a valid name): the
truncated name already has an index token, or fewer than `MAX_IR_CODES`
nonempty tokens exist. -/
def saveFits (st : Store) (n : List Char) : Bool :=
  let toks := indexTokens st
  toks.any (fun t => truncName t == truncName n)
    || decide ((toks.filter (fun t => !t.isEmpty)).length < maxIrCodes)

/-- Precondition of one operation in the amended index-consistency claim. -/
def okOp (st : Store) : StoreOp → Prop
  | StoreOp.save n _ _ _ => validCodeName n ∧ saveFits st n = true
  | StoreOp.saveRaw n _ => validCodeName n
  | StoreOp.del n => validCodeName n

instance (st : Store) (op : StoreOp) : Decidable (okOp st op) := by
  cases op <;> (unfold okOp; infer_instance)

def okOps : Store → List StoreOp → Prop
  | _, [] => True
  | st, op :: ops => okOp st op ∧ okOps (applyOp st op) ops

instance okOpsDec : (st : Store) → (ops : List StoreOp) → Decidable (okOps st ops)
  | _, [] => Decidable.isTrue trivial
  | st, op :: ops =>
    have : Decidable (okOps (applyOp st op) ops) := okOpsDec _ _
    by unfold okOps; infer_instance

/-- An index token the invariant admits. -/
def goodTok (t : List Char) : Prop :=
  t ≠ [] ∧ ',' ∉ t ∧ t.length ≤ 10 ∧ t ≠ listTok

/-- Whether the truncated-name `t` owns a protocol or raw record. -/
def hasRecordKeys (st : Store) (t : List Char) : Prop :=
  getString st (codePfx ++ t) [] ≠ [] ∨ getString st (rawPfx ++ t) [] ≠ []

/-- The store invariant: the index string is the comma-join of a duplicate-free
list of good tokens, each backed by a record; every stored pair has a nonempty
value and is the index or a record of an indexed token; keys are unique. -/
def Inv (st : Store) : Prop :=
  ∃ L : List (List Char),
    getString st idxKey [] = joinComma L ∧
    (∀ t ∈ L, goodTok t) ∧
    L.Nodup ∧
    (∀ t ∈ L, hasRecordKeys st t) ∧
    (∀ k v, (k, v) ∈ st → v ≠ [] ∧
      (k = idxKey ∨ ∃ t ∈ L, k = codePfx ++ t ∨ k = rawPfx ++ t)) ∧
    (st.map Prod.fst).Nodup

/-- One hundred distinct short names, filling the store to `MAX_IR_CODES`. -/
def demoNames : List (List Char) := (List.range 100).map (fun i => 'n' :: natRepr i)

/-- A protocol record value used by the full demonstration store. -/
def demoRecord : List Char := serializeCode 3 1 32

/-- A store holding exactly `MAX_IR_CODES` indexed protocol records. -/
def demoFullStore : Store :=
  (idxKey, joinComma demoNames) :: demoNames.map (fun t => (codePfx ++ t, demoRecord))

/-- A store with one indexed record, for exercising deletion under the
reserved name: the index lists `a` and `code_a` holds a record. -/
def demoListStore : Store := [(idxKey, [ 'a' ]), (codePfx ++ [ 'a' ], [ 'x' ])]

/-- A three-operation history: one protocol save, one raw save, one delete. -/
def demoOps : List StoreOp :=
  [StoreOp.save [ 't', 'v' ] 3 551914223 32,
   StoreOp.saveRaw [ 'f', 'a', 'n' ] [4500, 560, 1690],
   StoreOp.del [ 't', 'v' ]]

/-! ### Store algebra -/

theorem getString_setString_self (st : Store) (k v d : List Char) :
    getString (setString st k v) k d = v := by
  induction st with
  | nil => simp [setString, getString]
  | cons p rest ih =>
    obtain ⟨k', v'⟩ := p
    by_cases h : k' = k <;> simp [setString, getString, h, ih]

theorem getString_setString_ne (st : Store) (k' k v d : List Char) (h : k' ≠ k) :
    getString (setString st k' v) k d = getString st k d := by
  induction st with
  | nil => simp [setString, getString, h]
  | cons p rest ih =>
    obtain ⟨k₀, v₀⟩ := p
    by_cases h₀ : k₀ = k'
    · simp [setString, getString, h₀, h]
    · by_cases h₁ : k₀ = k
      · simp [setString, getString, h₀, h₁, Ne.symm h, ih]
      · simp [setString, getString, h₀, h₁, ih]

theorem getString_eraseKey_self (st : Store) (k d : List Char) :
    getString (eraseKey st k) k d = d := by
  induction st with
  | nil => simp [eraseKey, getString]
  | cons p rest ih =>
    obtain ⟨k', v'⟩ := p
    by_cases h : k' = k <;> simp [eraseKey, getString, h, ih]

theorem getString_eraseKey_ne (st : Store) (k' k d : List Char) (h : k' ≠ k) :
    getString (eraseKey st k') k d = getString st k d := by
  induction st with
  | nil => simp [eraseKey, getString]
  | cons p rest ih =>
    obtain ⟨k₀, v₀⟩ := p
    by_cases h₀ : k₀ = k'
    · simp [eraseKey, getString, h₀, h, ih]
    · by_cases h₁ : k₀ = k
      · simp [eraseKey, getString, h₀, h₁, Ne.symm h, ih]
      · simp [eraseKey, getString, h₀, h₁, ih]

theorem mem_setString (st : Store) (k v k₀ v₀ : List Char)
    (h : (k, v) ∈ setString st k₀ v₀) : (k = k₀ ∧ v = v₀) ∨ (k, v) ∈ st := by
  induction st with
  | nil =>
    simp [setString] at h
    exact Or.inl h
  | cons p rest ih =>
    obtain ⟨k', v'⟩ := p
    by_cases hk : k' = k₀
    · have hset : setString ((k', v') :: rest) k₀ v₀ = (k₀, v₀) :: rest := by
        simp [setString, hk]
      rw [hset, List.mem_cons] at h
      rcases h with he | hm
      · injection he with h1 h2
        exact Or.inl ⟨h1, h2⟩
      · exact Or.inr (List.mem_cons.mpr (Or.inr hm))
    · have hset : setString ((k', v') :: rest) k₀ v₀ = (k', v') :: setString rest k₀ v₀ := by
        simp [setString, hk]
      rw [hset, List.mem_cons] at h
      rcases h with he | hm
      · exact Or.inr (List.mem_cons.mpr (Or.inl he))
      · rcases ih hm with h2 | h2
        · exact Or.inl h2
        · exact Or.inr (List.mem_cons.mpr (Or.inr h2))

theorem mem_eraseKey (st : Store) (k v k₀ : List Char)
    (h : (k, v) ∈ eraseKey st k₀) : (k, v) ∈ st ∧ k ≠ k₀ := by
  induction st with
  | nil => simp [eraseKey] at h
  | cons p rest ih =>
    obtain ⟨k', v'⟩ := p
    by_cases h' : k' = k₀
    · subst h'
      simp [eraseKey] at h
      rcases ih h with ⟨h1, h2⟩
      exact ⟨by simp [h1], h2⟩
    · simp [eraseKey, h'] at h
      rcases h with ⟨h1, h2⟩ | h
      · subst h1; subst h2; exact ⟨by simp, h'⟩
      · rcases ih h with ⟨h1, h2⟩
        exact ⟨by simp [h1], h2⟩

theorem eraseKey_sublist (st : Store) (k : List Char) :
    List.Sublist (eraseKey st k) st := by
  induction st with
  | nil => simp [eraseKey]
  | cons p rest ih =>
    obtain ⟨k', v'⟩ := p
    by_cases h : k' = k
    · simpa [eraseKey, h] using ih.cons ((k', v'))
    · simpa [eraseKey, h] using ih.cons₂ ((k', v'))

theorem keysNodup_eraseKey (st : Store) (k : List Char)
    (h : (st.map Prod.fst).Nodup) : ((eraseKey st k).map Prod.fst).Nodup :=
  ((eraseKey_sublist st k).map Prod.fst).nodup h

theorem keysNodup_setString (st : Store) (k v : List Char)
    (h : (st.map Prod.fst).Nodup) : ((setString st k v).map Prod.fst).Nodup := by
  induction st with
  | nil => simp [setString]
  | cons p rest ih =>
    obtain ⟨k', v'⟩ := p
    rw [List.map_cons, List.nodup_cons] at h
    by_cases h' : k' = k
    · subst h'
      have hset : setString ((k', v') :: rest) k' v = (k', v) :: rest := by
        simp [setString]
      rw [hset, List.map_cons, List.nodup_cons]
      exact h
    · simp only [setString, h', if_false, List.map_cons, List.nodup_cons]
      refine ⟨fun hmem => ?_, ih h.2⟩
      rw [List.mem_map] at hmem
      obtain ⟨⟨a, b⟩, hab, hfst⟩ := hmem
      rcases mem_setString rest a b k v hab with ⟨ha, _⟩ | hm
      · exact h' (by rw [← hfst, ha])
      · exact h.1 (List.mem_map.mpr ⟨(a, b), hm, hfst⟩)

theorem getString_mem (st : Store) (k : List Char)
    (h : getString st k [] ≠ []) : (k, getString st k []) ∈ st := by
  induction st with
  | nil => simp [getString] at h
  | cons p rest ih =>
    obtain ⟨k', v'⟩ := p
    by_cases h' : k' = k
    · subst h'; simp [getString]
    · simp only [getString, h', if_false] at h ⊢
      simp only [List.mem_cons]
      exact Or.inr (ih h)

theorem getString_eq_of_mem (st : Store) (k v d : List Char)
    (hn : (st.map Prod.fst).Nodup) (h : (k, v) ∈ st) : getString st k d = v := by
  induction st with
  | nil => simp at h
  | cons p rest ih =>
    obtain ⟨k', v'⟩ := p
    rw [List.map_cons, List.nodup_cons] at hn
    rcases List.mem_cons.mp h with he | h
    · injection he with h1 h2
      subst h1; subst h2
      simp [getString]
    · have hk : k' ≠ k := by
        intro he
        subst he
        exact hn.1 (List.mem_map.mpr ⟨(k', v), h, rfl⟩)
      simp only [getString, hk, if_false]
      exact ih hn.2 h

/-! ### Comma tokens -/

theorem splitTokens_cons_comma (cs : List Char) :
    splitTokens (',' :: cs) = [] :: splitTokens cs := by
  simp [splitTokens]

theorem splitTokens_cons_ne (c : Char) (cs : List Char) (h : c ≠ ',') :
    splitTokens (c :: cs)
      = match splitTokens cs with
        | [] => [[c]]
        | t :: ts => (c :: t) :: ts := by
  simp [splitTokens, h]

theorem splitTokens_ne_nil (s : List Char) (h : s ≠ []) : splitTokens s ≠ [] := by
  match s with
  | [] => exact absurd rfl h
  | c :: cs =>
    by_cases h' : c = ','
    · simp [splitTokens, h']
    · simp only [splitTokens, h', if_false]
      cases hts : splitTokens cs <;> simp

theorem mem_splitTokens_no_comma (s : List Char) :
    ∀ t ∈ splitTokens s, ',' ∉ t := by
  induction s with
  | nil => simp [splitTokens]
  | cons c cs ih =>
    by_cases h : c = ','
    · simp only [splitTokens, h, if_true]
      intro t ht
      rcases List.mem_cons.mp ht with rfl | ht
      · simp
      · exact ih t ht
    · simp only [splitTokens, h, if_false]
      cases hs : splitTokens cs with
      | nil =>
        intro t ht
        rcases List.mem_cons.mp ht with rfl | ht
        · intro hmem
          rcases List.mem_singleton.mp hmem with h1
          exact h h1.symm
        · simp at ht
      | cons t₀ ts =>
        intro t ht
        rcases List.mem_cons.mp ht with rfl | ht
        · intro hmem
          rcases List.mem_cons.mp hmem with h1 | h1
          · exact h h1.symm
          · exact ih t₀ (by rw [hs]; simp) h1
        · exact ih t (by rw [hs]; simp [ht])

theorem splitTokens_single (t : List Char) (ht : t ≠ []) (hc : ',' ∉ t) :
    splitTokens t = [t] := by
  induction t with
  | nil => simp at ht
  | cons c cs ih =>
    simp at hc
    push_neg at hc
    by_cases h : cs = []
    · subst h; simp [splitTokens, Ne.symm hc.1]
    · have := ih h hc.2
      simp [splitTokens, Ne.symm hc.1, this]

theorem splitTokens_comma_append (s u : List Char) :
    splitTokens (s ++ ',' :: u) = splitTokens (s ++ [',']) ++ splitTokens u := by
  induction s with
  | nil =>
    rw [List.nil_append, List.nil_append, splitTokens_cons_comma,
      splitTokens_cons_comma]
    simp [splitTokens]
  | cons c cs ih =>
    by_cases h : c = ','
    · subst h
      rw [List.cons_append, List.cons_append, splitTokens_cons_comma,
        splitTokens_cons_comma, ih]
      simp
    · rw [List.cons_append, List.cons_append, splitTokens_cons_ne c _ h,
        splitTokens_cons_ne c _ h, ih]
      have hne : splitTokens (cs ++ [',']) ≠ [] :=
        splitTokens_ne_nil _ (by simp)
      cases hs : splitTokens (cs ++ [',']) with
      | nil => exact absurd hs hne
      | cons t ts => simp

theorem splitTokens_append_comma (t : List Char) (ht : t ≠ []) (hc : ',' ∉ t) :
    splitTokens (t ++ [',']) = [t] := by
  induction t with
  | nil => simp at ht
  | cons c cs ih =>
    simp at hc
    push_neg at hc
    by_cases h : cs = []
    · subst h; simp [splitTokens, Ne.symm hc.1]
    · have := ih h hc.2
      simp [splitTokens, Ne.symm hc.1, this]

theorem splitTokens_joinComma (L : List (List Char))
    (h : ∀ t ∈ L, t ≠ [] ∧ ',' ∉ t) : splitTokens (joinComma L) = L := by
  induction L with
  | nil => simp [joinComma, splitTokens]
  | cons t ts ih =>
    match ts with
    | [] =>
      have := h t (by simp)
      simp [joinComma, splitTokens_single t this.1 this.2]
    | t' :: ts' =>
      have hth := h t (by simp)
      have hrest : ∀ x ∈ t' :: ts', x ≠ [] ∧ ',' ∉ x := fun x hx => h x (by simp [hx])
      calc splitTokens (joinComma (t :: t' :: ts'))
          = splitTokens (t ++ ',' :: joinComma (t' :: ts')) := rfl
        _ = splitTokens (t ++ [',']) ++ splitTokens (joinComma (t' :: ts')) :=
            splitTokens_comma_append _ _
        _ = [t] ++ (t' :: ts') := by
            rw [splitTokens_append_comma t hth.1 hth.2, ih hrest]
        _ = t :: t' :: ts' := rfl

theorem joinComma_ne_nil (L : List (List Char)) (hL : L ≠ [])
    (h : ∀ t ∈ L, t ≠ []) : joinComma L ≠ [] := by
  match L with
  | [t] => simpa [joinComma] using h t (by simp)
  | t :: t' :: ts =>
    have := h t (by simp)
    simp only [joinComma]
    simp [this]

theorem joinComma_append_single (L : List (List Char)) (t : List Char) :
    joinComma (L ++ [t]) = if L = [] then t else joinComma L ++ ',' :: t := by
  induction L with
  | nil => simp [joinComma]
  | cons u us ih =>
    cases us with
    | nil => simp [joinComma]
    | cons u' us' =>
      have h1 : joinComma ((u :: u' :: us') ++ [t])
          = u ++ ',' :: joinComma ((u' :: us') ++ [t]) := rfl
      rw [h1, ih]
      simp [joinComma]

theorem mem_splitTokens_comma_append (s t : List Char) (ht : t ≠ []) (hc : ',' ∉ t) :
    t ∈ splitTokens (s ++ ',' :: t) := by
  rw [splitTokens_comma_append, splitTokens_single t ht hc]
  simp

/-! ### Truncation -/

theorem truncName_length_le (n : List Char) : (truncName n).length ≤ 10 := by
  unfold truncName
  split
  · simp [List.length_take]
  · omega

theorem truncName_eq_self (n : List Char) (h : n.length ≤ 10) : truncName n = n := by
  unfold truncName
  split
  · omega
  · rfl

theorem truncName_idem (n : List Char) : truncName (truncName n) = truncName n :=
  truncName_eq_self _ (truncName_length_le n)

theorem truncName_ne_nil (n : List Char) (h : n ≠ []) : truncName n ≠ [] := by
  unfold truncName
  split
  · match n with
    | c :: cs => simp [List.take]
  · exact h

theorem not_mem_truncName (n : List Char) (c : Char) (h : c ∉ n) :
    c ∉ truncName n := by
  unfold truncName
  split
  · exact fun hc => h (List.take_subset _ _ hc)
  · exact h

theorem truncName_head? (n : List Char) (h : n ≠ []) :
    (truncName n).head? = n.head? := by
  unfold truncName
  split
  · match n with
    | c :: cs => simp [List.take]
  · rfl

/-! ### Decimal rendering and scanning -/

theorem digitCh_toNat (d : Nat) (h : d < 10) : (digitCh d).toNat = 48 + d := by
  interval_cases d <;> rfl

theorem isDigitCh_digitCh (d : Nat) (h : d < 10) : isDigitCh (digitCh d) = true := by
  interval_cases d <;> rfl

theorem natReprGo_fuel (f1 : Nat) : ∀ f2 n : Nat, n < f1 → n < f2 →
    natReprGo f1 n = natReprGo f2 n := by
  induction f1 with
  | zero => intro f2 n h1; omega
  | succ f1 ih =>
    intro f2 n h1 h2
    cases f2 with
    | zero => omega
    | succ f2 =>
      by_cases h : n < 10
      · simp [natReprGo, h]
      · have hd : n / 10 < n := Nat.div_lt_self (by omega) (by omega)
        simp only [natReprGo, h, if_false]
        rw [ih f2 (n / 10) (by omega) (by omega)]

theorem natReprGo_succ (fuel n : Nat) :
    natReprGo (fuel + 1) n
      = if n < 10 then [digitCh n]
        else natReprGo fuel (n / 10) ++ [digitCh (n % 10)] := rfl

theorem natRepr_unfold (n : Nat) :
    natRepr n = if n < 10 then [digitCh n]
      else natRepr (n / 10) ++ [digitCh (n % 10)] := by
  unfold natRepr
  rw [natReprGo_succ]
  by_cases h : n < 10
  · rw [if_pos h, if_pos h]
  · rw [if_neg h, if_neg h]
    have hd : n / 10 < n := Nat.div_lt_self (by omega) (by omega)
    rw [natReprGo_fuel n (n / 10 + 1) (n / 10) hd (by omega)]

theorem natRepr_ne_nil (n : Nat) : natRepr n ≠ [] := by
  rw [natRepr_unfold]
  split <;> simp

theorem natRepr_all_digits (n : Nat) : ∀ c ∈ natRepr n, isDigitCh c = true := by
  induction n using Nat.strong_induction_on with
  | _ n ih =>
    rw [natRepr_unfold]
    split
    · next h =>
      intro c hc
      rcases List.mem_singleton.mp hc with rfl
      exact isDigitCh_digitCh n h
    · next h =>
      intro c hc
      rcases List.mem_append.mp hc with h1 | h1
      · exact ih (n / 10) (Nat.div_lt_self (by omega) (by omega)) c h1
      · rcases List.mem_singleton.mp h1 with rfl
        exact isDigitCh_digitCh _ (Nat.mod_lt _ (by omega))

theorem no_comma_of_all_digits (s : List Char)
    (h : ∀ c ∈ s, isDigitCh c = true) : ',' ∉ s := by
  intro hc
  have := h ',' hc
  simp [isDigitCh] at this

theorem natRepr_no_comma (n : Nat) : ',' ∉ natRepr n :=
  no_comma_of_all_digits _ (natRepr_all_digits n)

theorem intRepr_ne_nil (p : Int) : intRepr p ≠ [] := by
  unfold intRepr
  split
  · simp
  · exact natRepr_ne_nil _

theorem intRepr_no_comma (p : Int) : ',' ∉ intRepr p := by
  unfold intRepr
  split
  · intro hc
    rcases List.mem_cons.mp hc with h1 | h1
    · simp at h1
    · exact natRepr_no_comma _ h1
  · exact natRepr_no_comma _

theorem digitsVal_append (a : Nat) (xs ys : List Char) :
    digitsVal a (xs ++ ys) = digitsVal (digitsVal a xs) ys := by
  simp [digitsVal, List.foldl_append]

theorem digitsVal_natRepr (n : Nat) :
    ∀ a, digitsVal a (natRepr n) = a * 10 ^ (natRepr n).length + n := by
  induction n using Nat.strong_induction_on with
  | _ n ih =>
    intro a
    rw [natRepr_unfold]
    split
    · next h =>
      simp [digitsVal, digitCh_toNat n h]
    · next h =>
      have hdiv : n / 10 < n := Nat.div_lt_self (by omega) (by omega)
      have hm : n % 10 < 10 := Nat.mod_lt _ (by omega)
      rw [digitsVal_append, ih (n / 10) hdiv a]
      have hone : digitsVal (a * 10 ^ (natRepr (n / 10)).length + n / 10) [digitCh (n % 10)]
          = (a * 10 ^ (natRepr (n / 10)).length + n / 10) * 10 + n % 10 := by
        simp [digitsVal, digitCh_toNat _ hm]
      rw [hone]
      have hlen : (natRepr (n / 10) ++ [digitCh (n % 10)]).length
          = (natRepr (n / 10)).length + 1 := by simp
      rw [hlen, pow_succ]
      have hdm : n / 10 * 10 + n % 10 = n := by omega
      calc (a * 10 ^ (natRepr (n / 10)).length + n / 10) * 10 + n % 10
          = a * (10 ^ (natRepr (n / 10)).length * 10) + (n / 10 * 10 + n % 10) := by ring
        _ = a * (10 ^ (natRepr (n / 10)).length * 10) + n := by rw [hdm]

theorem digitsVal_natRepr_zero (n : Nat) : digitsVal 0 (natRepr n) = n := by
  simpa using digitsVal_natRepr n 0

theorem takeWhile_all_append (p : Char → Bool) (xs rest : List Char)
    (h : ∀ x ∈ xs, p x = true) :
    (xs ++ rest).takeWhile p = xs ++ rest.takeWhile p ∧
      (xs ++ rest).dropWhile p = rest.dropWhile p := by
  induction xs with
  | nil => simp
  | cons x xs ih =>
    have hx := h x (by simp)
    have ih' := ih (fun y hy => h y (by simp [hy]))
    simp [List.takeWhile_cons, List.dropWhile_cons, hx, ih'.1, ih'.2]

theorem headFail_takeWhile (p : Char → Bool) (rest : List Char)
    (h : ∀ c, rest.head? = some c → p c = false) :
    rest.takeWhile p = [] ∧ rest.dropWhile p = rest := by
  cases rest with
  | nil => simp
  | cons c cs =>
    have := h c rfl
    simp [List.takeWhile_cons, List.dropWhile_cons, this]

theorem parseNatFrom_append_repr (n : Nat) (rest : List Char)
    (h : ∀ c, rest.head? = some c → isDigitCh c = false) :
    parseNatFrom (natRepr n ++ rest) = some (n, rest) := by
  have h1 := takeWhile_all_append isDigitCh (natRepr n) rest (natRepr_all_digits n)
  have h2 := headFail_takeWhile isDigitCh rest h
  simp only [parseNatFrom, h1.1, h1.2, h2.1, h2.2, List.append_nil]
  rw [if_neg (by simp [natRepr_ne_nil n])]
  rw [digitsVal_natRepr_zero]

theorem parseIntFrom_append_repr (p : Int) (rest : List Char)
    (h : ∀ c, rest.head? = some c → isDigitCh c = false) :
    parseIntFrom (intRepr p ++ rest) = some (p, rest) := by
  by_cases hp : p < 0
  · rw [intRepr, if_pos hp]
    simp only [List.cons_append, parseIntFrom, if_pos rfl]
    rw [parseNatFrom_append_repr _ _ h]
    have hval : (-((-p).toNat : Int)) = p := by omega
    show some (-((-p).toNat : Int), rest) = some (p, rest)
    rw [hval]
  · rw [intRepr, if_neg hp]
    obtain ⟨c, cs, hcons⟩ := List.exists_cons_of_ne_nil (natRepr_ne_nil p.toNat)
    have hcdig : isDigitCh c = true := natRepr_all_digits _ c (by rw [hcons]; simp)
    have hcne : ¬(c = '-') := by
      intro he
      subst he
      simp [isDigitCh] at hcdig
    rw [hcons, List.cons_append]
    simp only [parseIntFrom, hcne, if_false]
    rw [← List.cons_append, ← hcons, parseNatFrom_append_repr _ _ h]
    have hval : ((p.toNat : Int)) = p := by omega
    show some ((p.toNat : Int), rest) = some (p, rest)
    rw [hval]

theorem dropLit_append (e rest : List Char) : dropLit e (e ++ rest) = some rest := by
  induction e with
  | nil => simp [dropLit]
  | cons c cs ih => simp [dropLit, ih]

theorem parseCodeValue_serialize (p : Int) (v b : Nat) (extra : List Char) :
    parseCodeValue (serializeCode p v b ++ extra) = some (p, v, b) := by
  have e1 : serializeCode p v b ++ extra
      = ('{' :: litProtocol)
        ++ (intRepr p
          ++ ((',' :: litValue)
            ++ (natRepr v
              ++ ((',' :: litBits)
                ++ (natRepr b ++ ('}' :: extra)))))) := by
    simp [serializeCode]
  have h1 : parseIntFrom (intRepr p
        ++ ((',' :: litValue)
          ++ (natRepr v
            ++ ((',' :: litBits)
              ++ (natRepr b ++ ('}' :: extra))))))
      = some (p, (',' :: litValue)
          ++ (natRepr v
            ++ ((',' :: litBits)
              ++ (natRepr b ++ ('}' :: extra))))) :=
    parseIntFrom_append_repr _ _ (by
      intro c hc
      simp at hc
      subst hc
      decide)
  have h2 : parseNatFrom (natRepr v
        ++ ((',' :: litBits) ++ (natRepr b ++ ('}' :: extra))))
      = some (v, (',' :: litBits) ++ (natRepr b ++ ('}' :: extra))) :=
    parseNatFrom_append_repr _ _ (by
      intro c hc
      simp at hc
      subst hc
      decide)
  have h3 : parseNatFrom (natRepr b ++ ('}' :: extra)) = some (b, '}' :: extra) :=
    parseNatFrom_append_repr _ _ (by
      intro c hc
      simp at hc
      subst hc
      decide)
  rw [e1]
  simp only [parseCodeValue, dropLit_append, h1, h2, h3]

/-! ### Key shapes -/

theorem app_left_cancel (pre a b : List Char) (h : pre ++ a = pre ++ b) : a = b := by
  induction pre with
  | nil => simpa using h
  | cons c cs ih => exact ih (by simpa using h)

theorem codeKey_eq_idxKey_iff (t : List Char) : codePfx ++ t = idxKey ↔ t = listTok := by
  constructor
  · intro h
    exact app_left_cancel codePfx t listTok (by rw [h]; decide)
  · intro h
    subst h
    decide

theorem rawKey_ne_idxKey (t : List Char) : rawPfx ++ t ≠ idxKey := by
  have h1 : rawPfx = 'r' :: [ 'a', 'w', '_' ] := by decide
  have h2 : idxKey = 'c' :: [ 'o', 'd', 'e', '_', 'l', 'i', 's', 't' ] := by decide
  rw [h1, h2]
  intro h
  simp at h

theorem codeKey_ne_rawKey (t u : List Char) : codePfx ++ t ≠ rawPfx ++ u := by
  have h1 : codePfx = 'c' :: [ 'o', 'd', 'e', '_' ] := by decide
  have h2 : rawPfx = 'r' :: [ 'a', 'w', '_' ] := by decide
  rw [h1, h2]
  intro h
  simp at h

theorem codeKey_inj (t u : List Char) (h : codePfx ++ t = codePfx ++ u) : t = u :=
  app_left_cancel codePfx t u h

theorem rawKey_inj (t u : List Char) (h : rawPfx ++ t = rawPfx ++ u) : t = u :=
  app_left_cancel rawPfx t u h

/-! ### Claims settled by direct evaluation -/

/-- Claim C9 (code bug evaluation): saving a name containing a comma is not
rejected at the save boundary — on an empty store, `SaveLearnedCode("a,b", 3, 1, 32)`
stores the record under `code_a,b` and writes `a,b` into the index, which the
comma-splitting loops thereafter read as the two bogus names `a` and `b`
(neither of which is loadable). -/
theorem claim_C9_comma_eval :
    getString (saveLearnedCode [] [ 'a', ',', 'b' ] 3 1 32)
        (codePfx ++ [ 'a', ',', 'b' ]) [] = serializeCode 3 1 32
    ∧ indexTokens (saveLearnedCode [] [ 'a', ',', 'b' ] 3 1 32) = [[ 'a' ], [ 'b' ]]
    ∧ loadFound (saveLearnedCode [] [ 'a', ',', 'b' ] 3 1 32) [ 'a' ] = false := by
  decide

/-- Claim C4 (code bug evaluation): with the store holding exactly
`MAX_IR_CODES` codes, `SaveRawCode` of a genuinely new name performs no
capacity check and grows the index to 101 entries, and `SaveLearnedCode` of a
genuinely new name does refuse the index entry but has already written the
record, leaving the store changed. -/
theorem claim_C4_capacity_eval :
    demoNames.length = maxIrCodes
    ∧ (indexTokens (saveRawCode demoFullStore [ 'e', 'x', 't', 'r', 'a' ] [100, 200])).length = 101
    ∧ getString (saveLearnedCode demoFullStore [ 'e', 'x', 't' ] 3 1 32)
        (codePfx ++ [ 'e', 'x', 't' ]) [] = serializeCode 3 1 32
    ∧ indexTokens (saveLearnedCode demoFullStore [ 'e', 'x', 't' ] 3 1 32) = demoNames := by
  decide

/-- Claim C6 (code bug evaluation): the post-decode validity filter rejects
every `UNKNOWN` (-1) protocol result because `decode_type < 0`, so a decode
with protocol UNKNOWN, bits 32 and nonzero value is routed to the raw-data
path in learning mode instead of being saved through the learning callback
(the dedicated UNKNOWN-saving branch is unreachable); and a decode with
`bits = 0` — outside the claimed [1,64] — passes validation and is processed
as a valid code. -/
theorem claim_C6_validation_eval :
    processDecode ⟨unknownProto, 0x20DF10EF, 32, 100⟩ true = IrOutcome.rawLearned 100
    ∧ irValid ⟨unknownProto, 0x20DF10EF, 32, 100⟩ = false
    ∧ processDecode ⟨3, 5, 0, 20⟩ false = IrOutcome.normalCb 3 5 0
    ∧ irValid ⟨3, 5, 0, 20⟩ = true := by
  decide

/-- Claim C10: a SaveRaw call with no data (null pointer or zero length) or
with a serialized form longer than 3900 bytes aborts before any write, leaving
the persistent store exactly unchanged — no raw record and no index change. -/
theorem claim_C10_raw_atomic (st : Store) (name : List Char) (rawData : List Nat)
    (h : rawData = [] ∨ 3900 < (rawSerialize rawData).length) :
    saveRawCode st name rawData = st := by
  rcases h with h | h
  · subst h
    simp [saveRawCode]
  · simp only [saveRawCode]
    by_cases he : rawData.isEmpty = true
    · rw [if_pos he]
    · rw [if_neg he,
        if_neg (show ¬(256 ≤ 4 + (truncName name).length) from by
          have := truncName_length_le name
          omega),
        if_pos h]

/-- Witness for C10 at a concrete input. -/
theorem claim_C10_raw_atomic_witness :
    saveRawCode [] [ 'x' ] [] = ([] : Store) :=
  claim_C10_raw_atomic [] [ 'x' ] [] (Or.inl rfl)

/-- Claim C7: with the receiver started and the semaphore present, a
learn_command invocation that sees no capture event before the deadline
returns success `false` with the timeout error, touches no stored data, and
leaves the learning session inactive, so that a subsequent invocation with a
capture available succeeds. -/
theorem claim_C7_timeout (t : Nat) (bs : BoardState) (env : LearnEnv)
    (_h1 : 1 ≤ t) (_h2 : t ≤ 60) (hs : env.startOk = true)
    (hm : env.semaphoreOk = true) (hc : env.capture = none) :
    (learnCommand t bs env).1.success = false
    ∧ (learnCommand t bs env).1.error = some litTimeoutMsg
    ∧ (learnCommand t bs env).2.irLearningActive = false
    ∧ (learnCommand t bs env).2.store = bs.store
    ∧ ∀ env2 : LearnEnv, ∀ c, env2.startOk = true → env2.semaphoreOk = true →
        env2.capture = some c →
        (learnCommand t (learnCommand t bs env).2 env2).1.success = true := by
  obtain ⟨so, sem, cap⟩ := env
  simp only at hs hm hc
  subst hs; subst hm; subst hc
  refine ⟨rfl, rfl, rfl, rfl, ?_⟩
  intro env2 c hs2 hm2 hc2
  obtain ⟨so2, sem2, cap2⟩ := env2
  simp only at hs2 hm2 hc2
  subst hs2; subst hm2; subst hc2
  obtain ⟨c1, c2, c3⟩ := c
  rfl

/-- Witness for C7 at a concrete input. -/
theorem claim_C7_timeout_witness :
    (learnCommand 1 ⟨0, [], [], false, []⟩ ⟨true, true, none⟩).1.success = false
    ∧ (learnCommand 1 ⟨0, [], [], false, []⟩ ⟨true, true, none⟩).1.error = some litTimeoutMsg
    ∧ (learnCommand 1 ⟨0, [], [], false, []⟩ ⟨true, true, none⟩).2.irLearningActive = false
    ∧ (learnCommand 1 ⟨0, [], [], false, []⟩ ⟨true, true, none⟩).2.store = ([] : Store)
    ∧ ∀ env2 : LearnEnv, ∀ c, env2.startOk = true → env2.semaphoreOk = true →
        env2.capture = some c →
        (learnCommand 1 (learnCommand 1 ⟨0, [], [], false, []⟩ ⟨true, true, none⟩).2 env2).1.success = true :=
  claim_C7_timeout 1 ⟨0, [], [], false, []⟩ ⟨true, true, none⟩ (by decide) (by decide) rfl rfl rfl

/-! ### Shape of a serialized record -/

theorem serializeCode_ne_nil (p : Int) (v b : Nat) : serializeCode p v b ≠ [] := by
  simp [serializeCode]

theorem serializeCode_isEmpty (p : Int) (v b : Nat) :
    (serializeCode p v b).isEmpty = false := rfl

theorem parseRawValue_nil : parseRawValue [] = none := rfl

theorem splitTokens_serializeCode (p : Int) (v b : Nat) :
    splitTokens (serializeCode p v b)
      = ['{' :: (litProtocol ++ intRepr p),
         litValue ++ natRepr v,
         litBits ++ (natRepr b ++ [ '}' ])] := by
  have hT1 : ('{' :: (litProtocol ++ intRepr p)) ≠ [] := by simp
  have hc1 : ',' ∉ '{' :: (litProtocol ++ intRepr p) := by
    intro h
    rcases List.mem_cons.mp h with h | h
    · simp at h
    · rcases List.mem_append.mp h with h | h
      · revert h; decide
      · exact intRepr_no_comma p h
  have hT2 : litValue ++ natRepr v ≠ [] := by
    intro h
    exact absurd (List.append_eq_nil.mp h).1 (by decide)
  have hc2 : ',' ∉ litValue ++ natRepr v := by
    intro h
    rcases List.mem_append.mp h with h | h
    · revert h; decide
    · exact natRepr_no_comma v h
  have hT3 : litBits ++ (natRepr b ++ [ '}' ]) ≠ [] := by
    intro h
    exact absurd (List.append_eq_nil.mp h).1 (by decide)
  have hc3 : ',' ∉ litBits ++ (natRepr b ++ [ '}' ]) := by
    intro h
    rcases List.mem_append.mp h with h | h
    · revert h; decide
    · rcases List.mem_append.mp h with h | h
      · exact natRepr_no_comma b h
      · simp at h
  have e : serializeCode p v b
      = ('{' :: (litProtocol ++ intRepr p))
        ++ ',' :: ((litValue ++ natRepr v)
          ++ ',' :: (litBits ++ (natRepr b ++ [ '}' ]))) := by
    simp [serializeCode]
  rw [e, splitTokens_comma_append, splitTokens_append_comma _ hT1 hc1,
    splitTokens_comma_append, splitTokens_append_comma _ hT2 hc2,
    splitTokens_single _ hT3 hc3]
  rfl

theorem truncName_ne_of_head (T : List Char) (c : Char) (hh : T.head? = some c)
    (hc : c ≠ 'l') : truncName T ≠ listTok := by
  intro h
  have hne : T ≠ [] := by
    cases T
    · simp at hh
    · simp
  have hhead := truncName_head? T hne
  rw [h, hh] at hhead
  have : listTok.head? = some 'l' := by decide
  rw [this] at hhead
  exact hc (by injection hhead with h1; exact h1.symm)

/-! ### What SaveLearnedCode leaves behind -/

theorem saveLearnedCode_record (st : Store) (n : List Char) (p : Int) (v b : Nat)
    (h : truncName n ≠ listTok) :
    getString (saveLearnedCode st n p v b) (codePfx ++ truncName n) []
      = serializeCode p v b := by
  have hg : ¬(16 ≤ 5 + (truncName n).length) := by
    have := truncName_length_le n
    omega
  have hne : idxKey ≠ codePfx ++ truncName n := by
    intro he
    exact h ((codeKey_eq_idxKey_iff (truncName n)).mp he.symm)
  simp only [saveLearnedCode, hg, if_false]
  split
  · exact getString_setString_self ..
  · split
    · rw [getString_setString_ne _ _ _ _ _ hne]
      exact getString_setString_self ..
    · exact getString_setString_self ..

theorem saveLearnedCode_record_list (st : Store) (n : List Char) (p : Int) (v b : Nat)
    (h : truncName n = listTok) :
    getString (saveLearnedCode st n p v b) (codePfx ++ truncName n) []
      = serializeCode p v b ++ ',' :: listTok := by
  have hg : ¬(16 ≤ 5 + (truncName n).length) := by
    have := truncName_length_le n
    omega
  have hck : codePfx ++ truncName n = idxKey := by
    rw [h]; decide
  simp only [saveLearnedCode, hg, if_false, hck]
  rw [getString_setString_self]
  rw [splitTokens_serializeCode]
  have h1 : truncName ('{' :: (litProtocol ++ intRepr p)) ≠ truncName n := by
    rw [h]
    exact truncName_ne_of_head _ '{' rfl (by decide)
  have h2 : truncName (litValue ++ natRepr v) ≠ truncName n := by
    rw [h]
    refine truncName_ne_of_head _ '"' ?_ (by decide)
    have e : litValue = '"' :: [ 'v', 'a', 'l', 'u', 'e', '"', ':' ] := by decide
    rw [e, List.cons_append]
    rfl
  have h3 : truncName (litBits ++ (natRepr b ++ [ '}' ])) ≠ truncName n := by
    rw [h]
    refine truncName_ne_of_head _ '"' ?_ (by decide)
    have e : litBits = '"' :: [ 'b', 'i', 't', 's', '"', ':' ] := by decide
    rw [e, List.cons_append]
    rfl
  have hany : [('{' :: (litProtocol ++ intRepr p)),
      litValue ++ natRepr v,
      litBits ++ (natRepr b ++ [ '}' ])].any (fun t => truncName t == truncName n) = false := by
    simp [List.any_eq_true, beq_iff_eq, h1, h2, h3]
  rw [hany]
  have hcnt : ¬(false = false ∧ maxIrCodes ≤
      ([('{' :: (litProtocol ++ intRepr p)),
        litValue ++ natRepr v,
        litBits ++ (natRepr b ++ [ '}' ])].filter (fun t => !t.isEmpty)).length) := by
    intro hh
    have hb := hh.2
    have e1 : ('{' :: (litProtocol ++ intRepr p)).isEmpty = false := rfl
    have e2 : (litValue ++ natRepr v).isEmpty = false := by
      have e : litValue = '"' :: [ 'v', 'a', 'l', 'u', 'e', '"', ':' ] := by decide
      rw [e, List.cons_append]
      rfl
    have e3 : (litBits ++ (natRepr b ++ [ '}' ])).isEmpty = false := by
      have e : litBits = '"' :: [ 'b', 'i', 't', 's', '"', ':' ] := by decide
      rw [e, List.cons_append]
      rfl
    rw [List.filter_cons, List.filter_cons, List.filter_cons] at hb
    simp only [e1, e2, e3, Bool.not_false, if_true] at hb
    simp [maxIrCodes] at hb
  rw [if_neg hcnt, if_pos rfl]
  have hicl : (serializeCode p v b).isEmpty = false := serializeCode_isEmpty p v b
  rw [hicl]
  simp only [Bool.false_eq_true, if_false]
  rw [getString_setString_self, h]

/-! ### Loading -/

theorem loadLearnedCode_of_record (st : Store) (n : List Char) (p : Int) (v b : Nat)
    (extra : List Char)
    (hrec : getString st (codePfx ++ truncName n) [] = serializeCode p v b ++ extra) :
    loadLearnedCode st n = some (Sum.inl (p, v, b)) := by
  simp only [loadLearnedCode, hrec]
  have hie : (serializeCode p v b ++ extra).isEmpty = false := by
    have := serializeCode_ne_nil p v b
    cases hs : serializeCode p v b with
    | nil => exact absurd hs this
    | cons c cs => rw [List.cons_append]; rfl
  rw [hie]
  simp only [Bool.false_eq_true, if_false]
  rw [parseCodeValue_serialize]

theorem load_none_of_absent (st : Store) (n : List Char)
    (h1 : getString st (codePfx ++ truncName n) [] = [])
    (h2 : getString st (rawPfx ++ truncName n) [] = []) :
    loadLearnedCode st n = none := by
  simp only [loadLearnedCode, loadRawRecord, h1, h2, parseRawValue_nil]
  rfl

theorem indexPhase_absent (st2 : Store) (k : List Char) (found : Bool)
    (kept : List (List Char)) (hk : getString st2 k [] = []) :
    getString (if (getString st2 idxKey []).isEmpty = true then (true, st2)
      else if found = false then (true, st2)
      else if kept.isEmpty = true then (true, eraseKey st2 idxKey)
      else (true, setString st2 idxKey (joinComma kept))).2 k [] = [] := by
  by_cases hidx : (getString st2 idxKey []).isEmpty = true
  · rw [if_pos hidx]
    exact hk
  · rw [if_neg hidx]
    by_cases hf : found = false
    · rw [if_pos hf]
      exact hk
    · rw [if_neg hf]
      by_cases hke : kept.isEmpty = true
      · rw [if_pos hke]
        show getString (eraseKey st2 idxKey) k [] = []
        by_cases hki : k = idxKey
        · subst hki
          exact getString_eraseKey_self ..
        · rw [getString_eraseKey_ne _ _ _ _ (Ne.symm hki)]
          exact hk
      · rw [if_neg hke]
        show getString (setString st2 idxKey (joinComma kept)) k [] = []
        by_cases hki : k = idxKey
        · subst hki
          rw [hk] at hidx
          simp at hidx
        · rw [getString_setString_ne _ _ _ _ _ (Ne.symm hki)]
          exact hk

theorem deleteLearnedCode_clears (st : Store) (n : List Char) :
    getString (deleteLearnedCode st n).2 (codePfx ++ truncName n) [] = []
    ∧ getString (deleteLearnedCode st n).2 (rawPfx ++ truncName n) [] = [] := by
  have hg : ¬(16 ≤ 5 + (truncName n).length) := by
    have := truncName_length_le n
    omega
  have hckrk : codePfx ++ truncName n ≠ rawPfx ++ truncName n := codeKey_ne_rawKey _ _
  simp only [deleteLearnedCode, hg, if_false]
  by_cases hcv : (getString st (codePfx ++ truncName n) []).isEmpty = true
  · by_cases hrv : (getString st (rawPfx ++ truncName n) []).isEmpty = true
    · simp only [hcv, hrv, Bool.and_self, if_true]
      exact ⟨List.isEmpty_iff.mp hcv, List.isEmpty_iff.mp hrv⟩
    · have hrv' : (getString st (rawPfx ++ truncName n) []).isEmpty = false := by
        revert hrv
        cases (getString st (rawPfx ++ truncName n) []).isEmpty <;> simp
      simp only [hcv, hrv', Bool.true_and, if_true, if_false]
      simp only [Bool.false_eq_true, if_false]
      constructor
      · apply indexPhase_absent
        rw [getString_eraseKey_ne _ _ _ _ (Ne.symm hckrk)]
        exact List.isEmpty_iff.mp hcv
      · apply indexPhase_absent
        exact getString_eraseKey_self ..
  · have hcv' : (getString st (codePfx ++ truncName n) []).isEmpty = false := by
      revert hcv
      cases (getString st (codePfx ++ truncName n) []).isEmpty <;> simp
    by_cases hrv : (getString st (rawPfx ++ truncName n) []).isEmpty = true
    · simp only [hcv', hrv, Bool.false_and, Bool.false_eq_true, if_false, if_true]
      constructor
      · apply indexPhase_absent
        exact getString_eraseKey_self ..
      · apply indexPhase_absent
        rw [getString_eraseKey_ne _ _ _ _ hckrk]
        exact List.isEmpty_iff.mp hrv
    · have hrv' : (getString st (rawPfx ++ truncName n) []).isEmpty = false := by
        revert hrv
        cases (getString st (rawPfx ++ truncName n) []).isEmpty <;> simp
      simp only [hcv', hrv', Bool.false_and, Bool.false_eq_true, if_false]
      constructor
      · apply indexPhase_absent
        rw [getString_eraseKey_ne _ _ _ _ (Ne.symm hckrk)]
        exact getString_eraseKey_self ..
      · apply indexPhase_absent
        exact getString_eraseKey_self ..

/-- Claim C2: for every store, name and (protocol, value, bits) triple,
Save followed by Load yields exactly that triple back — the record serializes
the triple and loading parses the identical protocol, value and bits — and
Delete followed by Load yields not-found. -/
theorem claim_C2_roundtrip (st : Store) (name : List Char) (p : Int) (v b : Nat) :
    loadLearnedCode (saveLearnedCode st name p v b) name = some (Sum.inl (p, v, b))
    ∧ loadLearnedCode (deleteLearnedCode st name).2 name = none := by
  constructor
  · by_cases h : truncName name = listTok
    · exact loadLearnedCode_of_record _ _ p v b (',' :: listTok)
        (saveLearnedCode_record_list st name p v b h)
    · refine loadLearnedCode_of_record _ _ p v b [] ?_
      rw [List.append_nil]
      exact saveLearnedCode_record st name p v b h
  · have h := deleteLearnedCode_clears st name
    exact load_none_of_absent _ _ h.1 h.2

/-! ### Branch characterizations of the save operations -/

theorem saveLearnedCode_cases (st : Store) (n : List Char) (p : Int) (v b : Nat)
    (hlist : truncName n ≠ listTok) :
    saveLearnedCode st n p v b
      = if (splitTokens (getString st idxKey [])).any
            (fun t => truncName t == truncName n) = true
        then setString st (codePfx ++ truncName n) (serializeCode p v b)
        else if maxIrCodes ≤ ((splitTokens (getString st idxKey [])).filter
            (fun t => !t.isEmpty)).length
        then setString st (codePfx ++ truncName n) (serializeCode p v b)
        else setString (setString st (codePfx ++ truncName n) (serializeCode p v b))
          idxKey
          (if (getString st idxKey []).isEmpty = true then truncName n
           else getString st idxKey [] ++ ',' :: truncName n) := by
  have hg : ¬(16 ≤ 5 + (truncName n).length) := by
    have := truncName_length_le n
    omega
  have hne : codePfx ++ truncName n ≠ idxKey := by
    intro he
    exact hlist ((codeKey_eq_idxKey_iff (truncName n)).mp he)
  simp only [saveLearnedCode, hg, if_false]
  rw [getString_setString_ne _ _ _ _ _ hne]
  by_cases hex : (splitTokens (getString st idxKey [])).any
      (fun t => truncName t == truncName n) = true
  · rw [hex]
    simp
  · have hex' : (splitTokens (getString st idxKey [])).any
        (fun t => truncName t == truncName n) = false := by
      revert hex
      cases (splitTokens (getString st idxKey [])).any
        (fun t => truncName t == truncName n) <;> simp
    rw [hex']
    simp

theorem saveRawCode_cases (st : Store) (n : List Char) (d : List Nat)
    (hne : d.isEmpty = false) (hsz : ¬(3900 < (rawSerialize d).length)) :
    saveRawCode st n d
      = if (splitTokens (getString st idxKey [])).any
            (fun t => truncName t == truncName n) = true
        then setString st (rawPfx ++ truncName n) (rawSerialize d)
        else setString (setString st (rawPfx ++ truncName n) (rawSerialize d))
          idxKey
          (if (getString st idxKey []).isEmpty = true then truncName n
           else getString st idxKey [] ++ ',' :: truncName n) := by
  have hg : ¬(256 ≤ 4 + (truncName n).length) := by
    have := truncName_length_le n
    omega
  have hkne : rawPfx ++ truncName n ≠ idxKey := rawKey_ne_idxKey _
  simp only [saveRawCode, hne, Bool.false_eq_true, if_false, hg, hsz]
  rw [getString_setString_ne _ _ _ _ _ hkne]
  by_cases hex : (splitTokens (getString st idxKey [])).any
      (fun t => truncName t == truncName n) = true
  · rw [hex]
    simp
  · have hex' : (splitTokens (getString st idxKey [])).any
        (fun t => truncName t == truncName n) = false := by
      revert hex
      cases (splitTokens (getString st idxKey [])).any
        (fun t => truncName t == truncName n) <;> simp
    rw [hex']
    simp

/-- Claim C5 counterexample: the claim fails as stated for over-long names
whose 10-byte truncation ends in a comma.  `abcdefghi,x` and `abcdefghi,y`
both truncate to `abcdefghi,`; after saving the first on an empty store the
index lists the single token `abcdefghi`, and saving the second — a
post-truncation collision — is not treated as "already exists": the existing
token `abcdefghi` never compares equal to the truncated name `abcdefghi,`,
so a second, duplicated entry is appended and the index tokenizes to
`abcdefghi`, an empty token, and `abcdefghi` again. -/
theorem claim_C5_counterexample :
    truncName [ 'a', 'b', 'c', 'd', 'e', 'f', 'g', 'h', 'i', ',', 'x' ]
      = truncName [ 'a', 'b', 'c', 'd', 'e', 'f', 'g', 'h', 'i', ',', 'y' ]
    ∧ 10 < ([ 'a', 'b', 'c', 'd', 'e', 'f', 'g', 'h', 'i', ',', 'x' ] : List Char).length
    ∧ indexTokens (saveLearnedCode [] [ 'a', 'b', 'c', 'd', 'e', 'f', 'g', 'h', 'i', ',', 'x' ] 3 9 32)
        = [[ 'a', 'b', 'c', 'd', 'e', 'f', 'g', 'h', 'i' ]]
    ∧ indexTokens (saveLearnedCode
          (saveLearnedCode [] [ 'a', 'b', 'c', 'd', 'e', 'f', 'g', 'h', 'i', ',', 'x' ] 3 9 32)
          [ 'a', 'b', 'c', 'd', 'e', 'f', 'g', 'h', 'i', ',', 'y' ] 5 7 16)
        = [[ 'a', 'b', 'c', 'd', 'e', 'f', 'g', 'h', 'i' ], [],
           [ 'a', 'b', 'c', 'd', 'e', 'f', 'g', 'h', 'i' ]]
    ∧ ¬ (indexTokens (saveLearnedCode
          (saveLearnedCode [] [ 'a', 'b', 'c', 'd', 'e', 'f', 'g', 'h', 'i', ',', 'x' ] 3 9 32)
          [ 'a', 'b', 'c', 'd', 'e', 'f', 'g', 'h', 'i', ',', 'y' ] 5 7 16)).Nodup := by
  decide

/-- Claim C5 (amended): two names with the same 10-byte truncation are
interchangeable at every call site that derives a storage key — save, raw
save, delete and load (the SendLearnedCode lookup) give identical results,
with no restriction on the names; but a post-truncation collision is treated
as "already exists" (re-saving adds no index entry) only when the truncated
name is nonempty, comma-free and not the reserved token `list` — when the
truncation cut lands after a comma, the collision is missed and a duplicate
entry is appended. -/
theorem claim_C5_amended (st : Store) (n1 n2 : List Char) (p p2 : Int)
    (v b v2 b2 : Nat) (d : List Nat)
    (h : truncName n1 = truncName n2) :
    saveLearnedCode st n1 p v b = saveLearnedCode st n2 p v b
    ∧ saveRawCode st n1 d = saveRawCode st n2 d
    ∧ deleteLearnedCode st n1 = deleteLearnedCode st n2
    ∧ loadLearnedCode st n1 = loadLearnedCode st n2
    ∧ (validCodeName (truncName n1) →
        indexTokens (saveLearnedCode (saveLearnedCode st n1 p v b) n2 p2 v2 b2)
          = indexTokens (saveLearnedCode st n1 p v b)) := by
  refine ⟨by simp only [saveLearnedCode, h], by simp only [saveRawCode, h],
    by simp only [deleteLearnedCode, h],
    by simp only [loadLearnedCode, loadRawRecord, h], ?_⟩
  intro hv
  have hv1 : truncName n1 ≠ [] := hv.1
  have hvc : ',' ∉ truncName n1 := hv.2.1
  have hvl : truncName n1 ≠ listTok := by
    have h2 := hv.2.2
    rwa [truncName_idem] at h2
  have hckne : codePfx ++ truncName n1 ≠ idxKey := by
    intro he
    exact hvl ((codeKey_eq_idxKey_iff _).mp he)
  have h5 : saveLearnedCode (saveLearnedCode st n1 p v b) n2 p2 v2 b2
      = saveLearnedCode (saveLearnedCode st n1 p v b) n1 p2 v2 b2 := by
    simp only [saveLearnedCode, h]
  rw [h5]
  rw [saveLearnedCode_cases st n1 p v b hvl]
  by_cases hex : (splitTokens (getString st idxKey [])).any
      (fun t => truncName t == truncName n1) = true
  · rw [if_pos hex]
    have hidx : getString (setString st (codePfx ++ truncName n1)
        (serializeCode p v b)) idxKey [] = getString st idxKey [] :=
      getString_setString_ne _ _ _ _ _ hckne
    rw [saveLearnedCode_cases _ n1 p2 v2 b2 hvl, hidx, if_pos hex]
    simp only [indexTokens]
    rw [getString_setString_ne _ _ _ _ _ hckne]
  · rw [if_neg hex]
    by_cases hcap : maxIrCodes ≤ ((splitTokens (getString st idxKey [])).filter
        (fun t => !t.isEmpty)).length
    · rw [if_pos hcap]
      have hidx : getString (setString st (codePfx ++ truncName n1)
          (serializeCode p v b)) idxKey [] = getString st idxKey [] :=
        getString_setString_ne _ _ _ _ _ hckne
      rw [saveLearnedCode_cases _ n1 p2 v2 b2 hvl, hidx, if_neg hex, if_pos hcap]
      simp only [indexTokens]
      rw [getString_setString_ne _ _ _ _ _ hckne]
    · rw [if_neg hcap]
      have hW : getString (setString (setString st (codePfx ++ truncName n1)
            (serializeCode p v b)) idxKey
            (if (getString st idxKey []).isEmpty = true then truncName n1
             else getString st idxKey [] ++ ',' :: truncName n1)) idxKey []
          = (if (getString st idxKey []).isEmpty = true then truncName n1
             else getString st idxKey [] ++ ',' :: truncName n1) :=
        getString_setString_self ..
      have hmem : truncName n1 ∈ splitTokens
          (if (getString st idxKey []).isEmpty = true then truncName n1
           else getString st idxKey [] ++ ',' :: truncName n1) := by
        by_cases hce : (getString st idxKey []).isEmpty = true
        · rw [if_pos hce, splitTokens_single _ hv1 hvc]
          simp
        · rw [if_neg hce]
          exact mem_splitTokens_comma_append _ _ hv1 hvc
      have hex2 : (splitTokens
          (if (getString st idxKey []).isEmpty = true then truncName n1
           else getString st idxKey [] ++ ',' :: truncName n1)).any
          (fun t => truncName t == truncName n1) = true := by
        rw [List.any_eq_true]
        refine ⟨truncName n1, hmem, ?_⟩
        rw [truncName_idem]
        simp
      rw [saveLearnedCode_cases _ n1 p2 v2 b2 hvl, hW, if_pos hex2]
      simp only [indexTokens]
      rw [getString_setString_ne _ _ _ _ _ hckne]

/-- Witness for C5 at concrete inputs: two over-long names sharing the
10-byte prefix `abcdefghij`. -/
theorem claim_C5_amended_witness :
    saveLearnedCode [] [ 'a', 'b', 'c', 'd', 'e', 'f', 'g', 'h', 'i', 'j', 'k' ] 3 9 32
        = saveLearnedCode [] [ 'a', 'b', 'c', 'd', 'e', 'f', 'g', 'h', 'i', 'j', 'z', 'z' ] 3 9 32
    ∧ saveRawCode [] [ 'a', 'b', 'c', 'd', 'e', 'f', 'g', 'h', 'i', 'j', 'k' ] [5, 6]
        = saveRawCode [] [ 'a', 'b', 'c', 'd', 'e', 'f', 'g', 'h', 'i', 'j', 'z', 'z' ] [5, 6]
    ∧ deleteLearnedCode [] [ 'a', 'b', 'c', 'd', 'e', 'f', 'g', 'h', 'i', 'j', 'k' ]
        = deleteLearnedCode [] [ 'a', 'b', 'c', 'd', 'e', 'f', 'g', 'h', 'i', 'j', 'z', 'z' ]
    ∧ loadLearnedCode [] [ 'a', 'b', 'c', 'd', 'e', 'f', 'g', 'h', 'i', 'j', 'k' ]
        = loadLearnedCode [] [ 'a', 'b', 'c', 'd', 'e', 'f', 'g', 'h', 'i', 'j', 'z', 'z' ]
    ∧ (validCodeName (truncName [ 'a', 'b', 'c', 'd', 'e', 'f', 'g', 'h', 'i', 'j', 'k' ]) →
        indexTokens (saveLearnedCode
            (saveLearnedCode [] [ 'a', 'b', 'c', 'd', 'e', 'f', 'g', 'h', 'i', 'j', 'k' ] 3 9 32)
            [ 'a', 'b', 'c', 'd', 'e', 'f', 'g', 'h', 'i', 'j', 'z', 'z' ] 5 7 16)
          = indexTokens (saveLearnedCode []
              [ 'a', 'b', 'c', 'd', 'e', 'f', 'g', 'h', 'i', 'j', 'k' ] 3 9 32)) :=
  claim_C5_amended [] _ _ 3 5 9 32 7 16 [5, 6] (by decide)

/-! ### Delete: index phase -/

theorem indexPhase_tokens (st2 : Store) (tn : List Char) :
    splitTokens (getString
      (if (getString st2 idxKey []).isEmpty = true then (true, st2)
       else if (splitTokens (getString st2 idxKey [])).any
           (fun t => truncName t == tn) = false then (true, st2)
       else if ((splitTokens (getString st2 idxKey [])).filter
           (fun t => !(truncName t == tn) && !t.isEmpty)).isEmpty = true
         then (true, eraseKey st2 idxKey)
       else (true, setString st2 idxKey
          (joinComma ((splitTokens (getString st2 idxKey [])).filter
            (fun t => !(truncName t == tn) && !t.isEmpty))))).2 idxKey [])
    = if (splitTokens (getString st2 idxKey [])).any
          (fun t => truncName t == tn) = true
      then (splitTokens (getString st2 idxKey [])).filter
          (fun t => !(truncName t == tn) && !t.isEmpty)
      else splitTokens (getString st2 idxKey []) := by
  by_cases h0 : (getString st2 idxKey []).isEmpty = true
  · rw [if_pos h0]
    have hnil : getString st2 idxKey [] = [] := List.isEmpty_iff.mp h0
    rw [hnil]
    simp [splitTokens]
  · rw [if_neg h0]
    by_cases h1 : (splitTokens (getString st2 idxKey [])).any
        (fun t => truncName t == tn) = false
    · rw [if_pos h1]
      rw [if_neg (by rw [h1]; simp)]
    · have h1' : (splitTokens (getString st2 idxKey [])).any
          (fun t => truncName t == tn) = true := by
        revert h1
        cases (splitTokens (getString st2 idxKey [])).any
          (fun t => truncName t == tn) <;> simp
      rw [if_neg h1, if_pos h1']
      by_cases h2 : ((splitTokens (getString st2 idxKey [])).filter
          (fun t => !(truncName t == tn) && !t.isEmpty)).isEmpty = true
      · rw [if_pos h2]
        show splitTokens (getString (eraseKey st2 idxKey) idxKey []) = _
        rw [getString_eraseKey_self]
        rw [List.isEmpty_iff.mp h2]
        simp [splitTokens]
      · rw [if_neg h2]
        show splitTokens (getString (setString st2 idxKey _) idxKey []) = _
        rw [getString_setString_self]
        refine splitTokens_joinComma _ ?_
        intro t ht
        rw [List.mem_filter] at ht
        refine ⟨?_, mem_splitTokens_no_comma _ t ht.1⟩
        have := ht.2
        rw [Bool.and_eq_true] at this
        intro hnil
        rw [hnil] at this
        simp at this

theorem indexPhase_erased (st2 : Store) (tn : List Char)
    (h1 : (splitTokens (getString st2 idxKey [])).any
        (fun t => truncName t == tn) = true)
    (h2 : (splitTokens (getString st2 idxKey [])).filter
        (fun t => !(truncName t == tn) && !t.isEmpty) = []) :
    ∀ w, (idxKey, w) ∉
      (if (getString st2 idxKey []).isEmpty = true then (true, st2)
       else if (splitTokens (getString st2 idxKey [])).any
           (fun t => truncName t == tn) = false then (true, st2)
       else if ((splitTokens (getString st2 idxKey [])).filter
           (fun t => !(truncName t == tn) && !t.isEmpty)).isEmpty = true
         then (true, eraseKey st2 idxKey)
       else (true, setString st2 idxKey
          (joinComma ((splitTokens (getString st2 idxKey [])).filter
            (fun t => !(truncName t == tn) && !t.isEmpty))))).2 := by
  intro w hw
  have h0 : ¬((getString st2 idxKey []).isEmpty = true) := by
    rcases List.any_eq_true.mp h1 with ⟨t, ht, _⟩
    cases hcl : getString st2 idxKey [] with
    | nil =>
      rw [hcl] at ht
      simp [splitTokens] at ht
    | cons c cs => simp
  rw [if_neg h0] at hw
  rw [if_neg (by rw [h1]; simp)] at hw
  rw [if_pos (by rw [h2]; rfl)] at hw
  exact (mem_eraseKey _ _ _ _ hw).2 rfl

theorem deleteLearnedCode_found_snd (st : Store) (n : List Char)
    (hlist : truncName n ≠ listTok)
    (hfound : ((getString st (codePfx ++ truncName n) []).isEmpty &&
               (getString st (rawPfx ++ truncName n) []).isEmpty) = false) :
    ∃ st2 : Store,
      (deleteLearnedCode st n).2
        = (if (getString st2 idxKey []).isEmpty = true then (true, st2)
           else if (splitTokens (getString st2 idxKey [])).any
               (fun t => truncName t == truncName n) = false then (true, st2)
           else if ((splitTokens (getString st2 idxKey [])).filter
               (fun t => !(truncName t == truncName n) && !t.isEmpty)).isEmpty = true
             then (true, eraseKey st2 idxKey)
           else (true, setString st2 idxKey
              (joinComma ((splitTokens (getString st2 idxKey [])).filter
                (fun t => !(truncName t == truncName n) && !t.isEmpty))))).2
      ∧ getString st2 idxKey [] = getString st idxKey [] := by
  have hg : ¬(16 ≤ 5 + (truncName n).length) := by
    have := truncName_length_le n
    omega
  have hckidx : codePfx ++ truncName n ≠ idxKey := by
    intro he
    exact hlist ((codeKey_eq_idxKey_iff _).mp he)
  have hrkidx : rawPfx ++ truncName n ≠ idxKey := rawKey_ne_idxKey _
  simp only [deleteLearnedCode, hg, if_false]
  by_cases hcv : (getString st (codePfx ++ truncName n) []).isEmpty = true
  · by_cases hrv : (getString st (rawPfx ++ truncName n) []).isEmpty = true
    · rw [hcv, hrv] at hfound
      simp at hfound
    · have hrv' : (getString st (rawPfx ++ truncName n) []).isEmpty = false := by
        revert hrv
        cases (getString st (rawPfx ++ truncName n) []).isEmpty <;> simp
      simp only [hcv, hrv', Bool.true_and, Bool.false_eq_true, if_false, if_true]
      exact ⟨eraseKey st (rawPfx ++ truncName n), rfl,
        getString_eraseKey_ne _ _ _ _ hrkidx⟩
  · have hcv' : (getString st (codePfx ++ truncName n) []).isEmpty = false := by
      revert hcv
      cases (getString st (codePfx ++ truncName n) []).isEmpty <;> simp
    by_cases hrv : (getString st (rawPfx ++ truncName n) []).isEmpty = true
    · simp only [hcv', hrv, Bool.false_and, Bool.false_eq_true, if_false, if_true]
      exact ⟨eraseKey st (codePfx ++ truncName n), rfl,
        getString_eraseKey_ne _ _ _ _ hckidx⟩
    · have hrv' : (getString st (rawPfx ++ truncName n) []).isEmpty = false := by
        revert hrv
        cases (getString st (rawPfx ++ truncName n) []).isEmpty <;> simp
      simp only [hcv', hrv', Bool.false_and, Bool.false_eq_true, if_false]
      refine ⟨eraseKey (eraseKey st (codePfx ++ truncName n)) (rawPfx ++ truncName n),
        rfl, ?_⟩
      rw [getString_eraseKey_ne _ _ _ _ hrkidx, getString_eraseKey_ne _ _ _ _ hckidx]

theorem indexPhase_fst (st2 : Store) (tn : List Char) :
    (if (getString st2 idxKey []).isEmpty = true then (true, st2)
     else if (splitTokens (getString st2 idxKey [])).any
         (fun t => truncName t == tn) = false then (true, st2)
     else if ((splitTokens (getString st2 idxKey [])).filter
         (fun t => !(truncName t == tn) && !t.isEmpty)).isEmpty = true
       then (true, eraseKey st2 idxKey)
     else (true, setString st2 idxKey
        (joinComma ((splitTokens (getString st2 idxKey [])).filter
          (fun t => !(truncName t == tn) && !t.isEmpty))))).1 = true := by
  by_cases h0 : (getString st2 idxKey []).isEmpty = true
  · rw [if_pos h0]
  · rw [if_neg h0]
    by_cases h1 : (splitTokens (getString st2 idxKey [])).any
        (fun t => truncName t == tn) = false
    · rw [if_pos h1]
    · rw [if_neg h1]
      by_cases h2 : ((splitTokens (getString st2 idxKey [])).filter
          (fun t => !(truncName t == tn) && !t.isEmpty)).isEmpty = true
      · rw [if_pos h2]
      · rw [if_neg h2]

/-- Claim C3 counterexample: the claim fails as stated for the name `list`,
whose record key is the index key itself.  On a store whose index holds the
single name `a` (with its record), `DeleteLearnedCode("list")` returns true
although no record was stored under `list`, and destroys the whole index —
`a` disappears from the index while its record remains — instead of
rewriting the index to the remaining list `a`. -/
theorem claim_C3_counterexample :
    (deleteLearnedCode demoListStore [ 'l', 'i', 's', 't' ]).1 = true
    ∧ indexTokens (deleteLearnedCode demoListStore [ 'l', 'i', 's', 't' ]).2 = []
    ∧ getString (deleteLearnedCode demoListStore [ 'l', 'i', 's', 't' ]).2
        (codePfx ++ [ 'a' ]) [] = [ 'x' ]
    ∧ indexTokens demoListStore = [[ 'a' ]] := by
  decide

/-- Claim C3 (amended): for every name whose truncation is not the reserved
index token `list`, Delete erases both the protocol and the raw record,
returns false exactly when neither record was present (leaving the store
untouched), rewrites the index as a full replacement of the remaining
comma-joined tokens whenever the name matched, and, when the removal empties
the index, erases the index key itself rather than storing an empty string. -/
theorem claim_C3_amended (st : Store) (name : List Char)
    (hlist : truncName name ≠ listTok) :
    ((deleteLearnedCode st name).1 = false
        ↔ (getString st (codePfx ++ truncName name) [] = []
           ∧ getString st (rawPfx ++ truncName name) [] = []))
    ∧ ((deleteLearnedCode st name).1 = false → (deleteLearnedCode st name).2 = st)
    ∧ getString (deleteLearnedCode st name).2 (codePfx ++ truncName name) [] = []
    ∧ getString (deleteLearnedCode st name).2 (rawPfx ++ truncName name) [] = []
    ∧ ((getString st (codePfx ++ truncName name) [] ≠ []
        ∨ getString st (rawPfx ++ truncName name) [] ≠ []) →
        indexTokens (deleteLearnedCode st name).2
          = if (indexTokens st).any
                (fun t => truncName t == truncName name) = true
            then (indexTokens st).filter
                (fun t => !(truncName t == truncName name) && !t.isEmpty)
            else indexTokens st)
    ∧ ((getString st (codePfx ++ truncName name) [] ≠ []
        ∨ getString st (rawPfx ++ truncName name) [] ≠ []) →
        (indexTokens st).any (fun t => truncName t == truncName name) = true →
        (indexTokens st).filter
          (fun t => !(truncName t == truncName name) && !t.isEmpty) = [] →
        ∀ w, (idxKey, w) ∉ (deleteLearnedCode st name).2) := by
  have hg : ¬(16 ≤ 5 + (truncName name).length) := by
    have := truncName_length_le name
    omega
  have hboolOf : ∀ hf : getString st (codePfx ++ truncName name) [] ≠ []
      ∨ getString st (rawPfx ++ truncName name) [] ≠ [],
      ((getString st (codePfx ++ truncName name) []).isEmpty &&
        (getString st (rawPfx ++ truncName name) []).isEmpty) = false := by
    intro hf
    rcases hf with hf | hf
    · cases hcl : getString st (codePfx ++ truncName name) [] with
      | nil => exact absurd hcl hf
      | cons c cs => rfl
    · cases hcl : getString st (rawPfx ++ truncName name) [] with
      | nil => exact absurd hcl hf
      | cons c cs => simp
  refine ⟨?_, ?_, (deleteLearnedCode_clears st name).1,
    (deleteLearnedCode_clears st name).2, ?_, ?_⟩
  · by_cases hb : ((getString st (codePfx ++ truncName name) []).isEmpty &&
        (getString st (rawPfx ++ truncName name) []).isEmpty) = true
    · rw [Bool.and_eq_true] at hb
      simp only [deleteLearnedCode, hg, if_false]
      rw [if_pos (by rw [hb.1, hb.2]; rfl)]
      simp only [true_iff]
      exact ⟨List.isEmpty_iff.mp hb.1, List.isEmpty_iff.mp hb.2⟩
    · constructor
      · intro hfalse
        exfalso
        simp only [deleteLearnedCode, hg, if_false] at hfalse
        rw [if_neg hb] at hfalse
        rw [indexPhase_fst] at hfalse
        simp at hfalse
      · intro hcc
        exfalso
        apply hb
        rw [List.isEmpty_iff.mpr hcc.1, List.isEmpty_iff.mpr hcc.2]
        rfl
  · intro hfalse
    by_cases hb : ((getString st (codePfx ++ truncName name) []).isEmpty &&
        (getString st (rawPfx ++ truncName name) []).isEmpty) = true
    · simp only [deleteLearnedCode, hg, if_false]
      rw [if_pos hb]
    · exfalso
      simp only [deleteLearnedCode, hg, if_false] at hfalse
      rw [if_neg hb] at hfalse
      rw [indexPhase_fst] at hfalse
      simp at hfalse
  · intro hf
    obtain ⟨st2, heq, hidx⟩ :=
      deleteLearnedCode_found_snd st name hlist (hboolOf hf)
    simp only [indexTokens]
    rw [heq, indexPhase_tokens st2 (truncName name), hidx]
  · intro hf hmatch hkept w
    obtain ⟨st2, heq, hidx⟩ :=
      deleteLearnedCode_found_snd st name hlist (hboolOf hf)
    rw [heq]
    refine indexPhase_erased st2 (truncName name) ?_ ?_ w
    · rw [hidx]
      exact hmatch
    · rw [hidx]
      exact hkept

/-- Witness for C3 (amended) at a concrete input: delete `tv` from a store
holding its record. -/
theorem claim_C3_amended_witness :
    ((deleteLearnedCode (saveLearnedCode [] [ 't', 'v' ] 3 9 32) [ 't', 'v' ]).1 = false
        ↔ (getString (saveLearnedCode [] [ 't', 'v' ] 3 9 32)
              (codePfx ++ truncName [ 't', 'v' ]) [] = []
           ∧ getString (saveLearnedCode [] [ 't', 'v' ] 3 9 32)
              (rawPfx ++ truncName [ 't', 'v' ]) [] = []))
    ∧ (((deleteLearnedCode (saveLearnedCode [] [ 't', 'v' ] 3 9 32) [ 't', 'v' ]).1 = false)
        → (deleteLearnedCode (saveLearnedCode [] [ 't', 'v' ] 3 9 32) [ 't', 'v' ]).2
            = saveLearnedCode [] [ 't', 'v' ] 3 9 32)
    ∧ getString (deleteLearnedCode (saveLearnedCode [] [ 't', 'v' ] 3 9 32) [ 't', 'v' ]).2
        (codePfx ++ truncName [ 't', 'v' ]) [] = []
    ∧ getString (deleteLearnedCode (saveLearnedCode [] [ 't', 'v' ] 3 9 32) [ 't', 'v' ]).2
        (rawPfx ++ truncName [ 't', 'v' ]) [] = []
    ∧ ((getString (saveLearnedCode [] [ 't', 'v' ] 3 9 32)
          (codePfx ++ truncName [ 't', 'v' ]) [] ≠ []
        ∨ getString (saveLearnedCode [] [ 't', 'v' ] 3 9 32)
          (rawPfx ++ truncName [ 't', 'v' ]) [] ≠ []) →
        indexTokens (deleteLearnedCode (saveLearnedCode [] [ 't', 'v' ] 3 9 32) [ 't', 'v' ]).2
          = if (indexTokens (saveLearnedCode [] [ 't', 'v' ] 3 9 32)).any
                (fun t => truncName t == truncName [ 't', 'v' ]) = true
            then (indexTokens (saveLearnedCode [] [ 't', 'v' ] 3 9 32)).filter
                (fun t => !(truncName t == truncName [ 't', 'v' ]) && !t.isEmpty)
            else indexTokens (saveLearnedCode [] [ 't', 'v' ] 3 9 32))
    ∧ ((getString (saveLearnedCode [] [ 't', 'v' ] 3 9 32)
          (codePfx ++ truncName [ 't', 'v' ]) [] ≠ []
        ∨ getString (saveLearnedCode [] [ 't', 'v' ] 3 9 32)
          (rawPfx ++ truncName [ 't', 'v' ]) [] ≠ []) →
        (indexTokens (saveLearnedCode [] [ 't', 'v' ] 3 9 32)).any
          (fun t => truncName t == truncName [ 't', 'v' ]) = true →
        (indexTokens (saveLearnedCode [] [ 't', 'v' ] 3 9 32)).filter
          (fun t => !(truncName t == truncName [ 't', 'v' ]) && !t.isEmpty) = [] →
        ∀ w, (idxKey, w) ∉
          (deleteLearnedCode (saveLearnedCode [] [ 't', 'v' ] 3 9 32) [ 't', 'v' ]).2) :=
  claim_C3_amended (saveLearnedCode [] [ 't', 'v' ] 3 9 32) [ 't', 'v' ] (by decide)

/-! ### JSON escaping -/

theorem hexVal_hexCh (d : Nat) (h : d < 16) : hexVal (hexCh d) = d := by
  interval_cases d <;> decide

theorem unescapeJson_q (r : List Char) :
    unescapeJson ('\\' :: '"' :: r)
      = (unescapeJson r).map (fun s => '"' :: s) := by
  rw [unescapeJson.eq_def]
  rfl

theorem unescapeJson_bs (r : List Char) :
    unescapeJson ('\\' :: '\\' :: r)
      = (unescapeJson r).map (fun s => '\\' :: s) := by
  rw [unescapeJson.eq_def]
  rfl

theorem unescapeJson_b (r : List Char) :
    unescapeJson ('\\' :: 'b' :: r)
      = (unescapeJson r).map (fun s => Char.ofNat 8 :: s) := by
  rw [unescapeJson.eq_def]
  rfl

theorem unescapeJson_f (r : List Char) :
    unescapeJson ('\\' :: 'f' :: r)
      = (unescapeJson r).map (fun s => Char.ofNat 12 :: s) := by
  rw [unescapeJson.eq_def]
  rfl

theorem unescapeJson_n (r : List Char) :
    unescapeJson ('\\' :: 'n' :: r)
      = (unescapeJson r).map (fun s => Char.ofNat 10 :: s) := by
  rw [unescapeJson.eq_def]
  rfl

theorem unescapeJson_r (r : List Char) :
    unescapeJson ('\\' :: 'r' :: r)
      = (unescapeJson r).map (fun s => Char.ofNat 13 :: s) := by
  rw [unescapeJson.eq_def]
  rfl

theorem unescapeJson_t (r : List Char) :
    unescapeJson ('\\' :: 't' :: r)
      = (unescapeJson r).map (fun s => Char.ofNat 9 :: s) := by
  rw [unescapeJson.eq_def]
  rfl

theorem unescapeJson_u (a b c2 d : Char) (r2 : List Char) :
    unescapeJson ('\\' :: 'u' :: a :: b :: c2 :: d :: r2)
      = (unescapeJson r2).map (fun s =>
          Char.ofNat (hexVal a * 4096 + hexVal b * 256
            + hexVal c2 * 16 + hexVal d) :: s) := by
  rw [unescapeJson.eq_def]
  rfl

theorem unescapeJson_cons_ne (c : Char) (rest : List Char) (h : ¬(c = '\\')) :
    unescapeJson (c :: rest) = (unescapeJson rest).map (fun s => c :: s) := by
  rw [unescapeJson.eq_def]
  simp only [h, if_false]

theorem unescape_escapeChar (c : Char) (u : List Char) :
    unescapeJson (escapeJsonChar c ++ u)
      = (unescapeJson u).map (fun s => c :: s) := by
  unfold escapeJsonChar
  by_cases h1 : c = '"'
  · subst h1
    rw [if_pos rfl]
    exact unescapeJson_q u
  · rw [if_neg h1]
    by_cases h2 : c = '\\'
    · subst h2
      rw [if_pos rfl]
      exact unescapeJson_bs u
    · rw [if_neg h2]
      by_cases h3 : c = Char.ofNat 8
      · subst h3
        rw [if_pos rfl]
        exact unescapeJson_b u
      · rw [if_neg h3]
        by_cases h4 : c = Char.ofNat 12
        · subst h4
          rw [if_pos rfl]
          exact unescapeJson_f u
        · rw [if_neg h4]
          by_cases h5 : c = Char.ofNat 10
          · subst h5
            rw [if_pos rfl]
            exact unescapeJson_n u
          · rw [if_neg h5]
            by_cases h6 : c = Char.ofNat 13
            · subst h6
              rw [if_pos rfl]
              exact unescapeJson_r u
            · rw [if_neg h6]
              by_cases h7 : c = Char.ofNat 9
              · subst h7
                rw [if_pos rfl]
                exact unescapeJson_t u
              · rw [if_neg h7]
                by_cases h8 : c.toNat < 32
                · rw [if_pos h8]
                  show unescapeJson ('\\' :: 'u' :: '0' :: '0'
                      :: hexCh (c.toNat / 16) :: hexCh (c.toNat % 16) :: u) = _
                  rw [unescapeJson_u]
                  have hhi : hexVal (hexCh (c.toNat / 16)) = c.toNat / 16 :=
                    hexVal_hexCh _ (by omega)
                  have hlo : hexVal (hexCh (c.toNat % 16)) = c.toNat % 16 :=
                    hexVal_hexCh _ (by omega)
                  have h0 : hexVal '0' = 0 := by decide
                  rw [h0, hhi, hlo]
                  have hch : Char.ofNat (0 * 4096 + 0 * 256 + c.toNat / 16 * 16
                      + c.toNat % 16) = c := by
                    have he : 0 * 4096 + 0 * 256 + c.toNat / 16 * 16 + c.toNat % 16
                        = c.toNat := by omega
                    rw [he, Char.ofNat_toNat]
                  rw [hch]
                · rw [if_neg h8]
                  show unescapeJson (c :: u) = _
                  exact unescapeJson_cons_ne c u h2

theorem unescape_escapeJsonString (s : List Char) :
    unescapeJson (escapeJsonString s) = some s := by
  induction s with
  | nil => rfl
  | cons c cs ih =>
    have he : escapeJsonString (c :: cs) = escapeJsonChar c ++ escapeJsonString cs := by
      simp [escapeJsonString]
    rw [he, unescape_escapeChar, ih]
    rfl

/-- Claim C8 counterexample: the `self.ir.save_code` tool of the zhengchen
board embeds the user-supplied name in its JSON response without escaping:
for the name `a"b` the produced response differs from the response that
would embed `EscapeJsonString(name)`, and the raw `"` lands in the output. -/
theorem claim_C8_counterexample :
    saveCodeResponse [ 'a', '"', 'b' ] ≠ saveCodeResponseEscaped [ 'a', '"', 'b' ]
    ∧ saveCodeResponse [ 'a', '"', 'b' ]
        = '{' :: litSaveCode ++ [ 'a', '"', 'b' ] ++ '"' :: [ '}' ] := by
  decide

/-- Claim C8 (amended): EscapeJsonString faithfully escapes quote, backslash
and the control characters below 0x20 — decoding its output by the JSON
string-escape convention recovers exactly the input — and GetLearnedCodes
embeds every rendered name through EscapeJsonString; but the zhengchen
`self.ir.save_code` response concatenates the user-supplied name verbatim. -/
theorem claim_C8_amended (name v : List Char) (h1 : name ≠ [])
    (h2 : ',' ∉ name) (h3 : name ≠ listTok) (h4 : name.length ≤ 250)
    (h5 : v ≠ []) (h6 : v.head? = some '{') :
    unescapeJson (escapeJsonString name) = some name
    ∧ getLearnedCodesJson [(idxKey, name), (codePfx ++ name, v)]
        = '{' :: litCodesHead
            ++ ('{' :: litEntryName ++ escapeJsonString name
                ++ litEntryDataObj ++ v ++ [ '}' ])
            ++ ']' :: [ '}' ]
    ∧ saveCodeResponse name = '{' :: litSaveCode ++ name ++ '"' :: [ '}' ] := by
  refine ⟨unescape_escapeJsonString name, ?_, rfl⟩
  have hni : name.isEmpty = false := by
    cases name with
    | nil => exact absurd rfl h1
    | cons a as => rfl
  have hvi : v.isEmpty = false := by
    cases v with
    | nil => exact absurd rfl h5
    | cons a as => rfl
  have hg1 : getString [(idxKey, name), (codePfx ++ name, v)] idxKey [] = name := by
    simp [getString]
  have hne : ¬(idxKey = codePfx ++ name) := by
    intro h
    exact h3 ((codeKey_eq_idxKey_iff name).mp h.symm)
  have hg2 : getString [(idxKey, name), (codePfx ++ name, v)] (codePfx ++ name) []
      = v := by
    simp [getString, hne]
  have hit : indexTokens [(idxKey, name), (codePfx ++ name, v)] = [name] := by
    rw [indexTokens, hg1]
    exact splitTokens_single name h1 h2
  have hlen : ¬(256 ≤ 5 + name.length) := by omega
  have hce : codesEntry [(idxKey, name), (codePfx ++ name, v)] name
      = some ('{' :: litEntryName ++ escapeJsonString name
          ++ litEntryDataObj ++ v ++ [ '}' ]) := by
    simp [codesEntry, hni, hlen, hg2, hvi, h6]
  rw [getLearnedCodesJson, hg1, if_neg (by simp [hni]), hit]
  rw [List.filterMap_cons, hce]
  rfl

theorem claim_C8_amended_witness :
    unescapeJson (escapeJsonString [ 'a', '"' ]) = some [ 'a', '"' ]
    ∧ getLearnedCodesJson
        [(idxKey, [ 'a', '"' ]), (codePfx ++ [ 'a', '"' ], [ '{', '}' ])]
        = '{' :: litCodesHead
            ++ ('{' :: litEntryName ++ escapeJsonString [ 'a', '"' ]
                ++ litEntryDataObj ++ [ '{', '}' ] ++ [ '}' ])
            ++ ']' :: [ '}' ]
    ∧ saveCodeResponse [ 'a', '"' ]
        = '{' :: litSaveCode ++ [ 'a', '"' ] ++ '"' :: [ '}' ] :=
  claim_C8_amended [ 'a', '"' ] [ '{', '}' ] (by decide) (by decide)
    (by decide) (by decide) (by decide) (by decide)

/-! ### Index-consistency invariant -/

theorem inv_empty : Inv [] :=
  ⟨[], rfl, by simp, List.nodup_nil, by simp, by simp, by simp⟩

theorem inv_record_mem (st : Store) (L : List (List Char))
    (h5 : ∀ k v, (k, v) ∈ st → v ≠ [] ∧
      (k = idxKey ∨ ∃ t ∈ L, k = codePfx ++ t ∨ k = rawPfx ++ t))
    (tn : List Char) (hln : tn ≠ listTok)
    (h : hasRecordKeys st tn) : tn ∈ L := by
  rcases h with hc | hc
  · have hm := getString_mem st (codePfx ++ tn) hc
    rcases (h5 _ _ hm).2 with he | ⟨t, ht, he | he⟩
    · exact absurd ((codeKey_eq_idxKey_iff tn).mp he) hln
    · rw [codeKey_inj tn t he]; exact ht
    · exact absurd he (codeKey_ne_rawKey tn t)
  · have hm := getString_mem st (rawPfx ++ tn) hc
    rcases (h5 _ _ hm).2 with he | ⟨t, ht, he | he⟩
    · exact absurd he (rawKey_ne_idxKey tn)
    · exact absurd he.symm (codeKey_ne_rawKey t tn)
    · rw [rawKey_inj tn t he]; exact ht

theorem inv_save (st : Store) (n : List Char) (p : Int) (v b : Nat)
    (hn : validCodeName n) (hf : saveFits st n = true) (hInv : Inv st) :
    Inv (saveLearnedCode st n p v b) := by
  obtain ⟨L, h1, h2, h3, h4, h5, h6⟩ := hInv
  obtain ⟨hne0, hnc0, hnl⟩ := hn
  have htnn : truncName n ≠ [] := truncName_ne_nil n hne0
  have htnc : ',' ∉ truncName n := not_mem_truncName n ',' hnc0
  have htnl : (truncName n).length ≤ 10 := truncName_length_le n
  have hckidx : codePfx ++ truncName n ≠ idxKey := fun he =>
    hnl ((codeKey_eq_idxKey_iff _).mp he)
  have htoks : splitTokens (getString st idxKey []) = L := by
    rw [h1]
    exact splitTokens_joinComma L (fun t ht => ⟨(h2 t ht).1, (h2 t ht).2.1⟩)
  rw [saveLearnedCode_cases st n p v b hnl, htoks]
  by_cases hmem : truncName n ∈ L
  · have hany : L.any (fun t => truncName t == truncName n) = true :=
      List.any_eq_true.mpr ⟨truncName n, hmem,
        by rw [truncName_idem]; exact beq_self_eq_true _⟩
    rw [if_pos hany]
    refine ⟨L, ?_, h2, h3, ?_, ?_, keysNodup_setString st _ _ h6⟩
    · rw [getString_setString_ne _ _ _ _ _ hckidx]
      exact h1
    · intro t htL
      by_cases hte : t = truncName n
      · subst hte
        left
        rw [getString_setString_self]
        exact serializeCode_ne_nil p v b
      · have hcc : codePfx ++ truncName n ≠ codePfx ++ t := fun he =>
          hte (codeKey_inj _ _ he).symm
        have hcr : codePfx ++ truncName n ≠ rawPfx ++ t := codeKey_ne_rawKey _ t
        rcases h4 t htL with hrec | hrec
        · left
          rw [getString_setString_ne _ _ _ _ _ hcc]
          exact hrec
        · right
          rw [getString_setString_ne _ _ _ _ _ hcr]
          exact hrec
    · intro k w hkw
      rcases mem_setString _ _ _ _ _ hkw with ⟨hk, hw⟩ | hkw1
      · subst hk
        exact ⟨by rw [hw]; exact serializeCode_ne_nil p v b,
          Or.inr ⟨truncName n, hmem, Or.inl rfl⟩⟩
      · exact h5 k w hkw1
  · have hany : L.any (fun t => truncName t == truncName n) = false := by
      cases hA : L.any (fun t => truncName t == truncName n) with
      | false => rfl
      | true =>
        exfalso
        rcases List.any_eq_true.mp hA with ⟨t, ht, hbe⟩
        have hts : truncName t = t := truncName_eq_self t ((h2 t ht).2.2.1)
        rw [hts] at hbe
        exact hmem (by rw [← eq_of_beq hbe]; exact ht)
    rw [if_neg (by rw [hany]; simp)]
    have hcnt : (L.filter (fun t => !t.isEmpty)).length < maxIrCodes := by
      unfold saveFits at hf
      simp only [indexTokens] at hf
      rcases (Bool.or_eq_true _ _).mp hf with hA | hB
      · rw [htoks, hany] at hA
        exact absurd hA (by simp)
      · have hB' := of_decide_eq_true hB
        rwa [htoks] at hB'
    rw [if_neg (by omega)]
    have hval : (if (getString st idxKey []).isEmpty = true then truncName n
        else getString st idxKey [] ++ ',' :: truncName n)
        = joinComma (L ++ [truncName n]) := by
      rw [joinComma_append_single]
      by_cases hL : L = []
      · subst hL
        rw [h1]
        simp [joinComma]
      · rw [if_neg hL]
        have hjne : joinComma L ≠ [] := joinComma_ne_nil L hL (fun t ht => (h2 t ht).1)
        have hie : (getString st idxKey []).isEmpty = false := by
          rw [h1]
          cases hj : joinComma L with
          | nil => exact absurd hj hjne
          | cons a as => rfl
        rw [hie, h1]
        simp
    rw [hval]
    have hgood : ∀ t ∈ L ++ [truncName n], goodTok t := by
      intro t ht
      rcases List.mem_append.mp ht with htL | ht1
      · exact h2 t htL
      · rw [List.mem_singleton] at ht1
        subst ht1
        exact ⟨htnn, htnc, htnl, hnl⟩
    refine ⟨L ++ [truncName n], getString_setString_self _ _ _ _, hgood, ?_, ?_, ?_,
      keysNodup_setString _ _ _ (keysNodup_setString _ _ _ h6)⟩
    · rw [List.nodup_append]
      refine ⟨h3, List.nodup_singleton _, ?_⟩
      intro a ha hb2
      rw [List.mem_singleton] at hb2
      subst hb2
      exact hmem ha
    · intro t ht
      rcases List.mem_append.mp ht with htL | ht1
      · have htne : t ≠ truncName n := fun he => hmem (he ▸ htL)
        have hgt := h2 t htL
        have hcne : idxKey ≠ codePfx ++ t := fun he =>
          hgt.2.2.2 ((codeKey_eq_idxKey_iff t).mp he.symm)
        have hcc : codePfx ++ truncName n ≠ codePfx ++ t := fun he =>
          htne (codeKey_inj _ _ he).symm
        have hrne : idxKey ≠ rawPfx ++ t := fun he => rawKey_ne_idxKey t he.symm
        have hcr : codePfx ++ truncName n ≠ rawPfx ++ t := codeKey_ne_rawKey _ t
        rcases h4 t htL with hrec | hrec
        · left
          rw [getString_setString_ne _ _ _ _ _ hcne,
            getString_setString_ne _ _ _ _ _ hcc]
          exact hrec
        · right
          rw [getString_setString_ne _ _ _ _ _ hrne,
            getString_setString_ne _ _ _ _ _ hcr]
          exact hrec
      · rw [List.mem_singleton] at ht1
        subst ht1
        left
        rw [getString_setString_ne _ _ _ _ _ (Ne.symm hckidx),
          getString_setString_self]
        exact serializeCode_ne_nil p v b
    · intro k w hkw
      rcases mem_setString _ _ _ _ _ hkw with ⟨hk, hw⟩ | hkw1
      · subst hk
        refine ⟨?_, Or.inl rfl⟩
        rw [hw]
        exact joinComma_ne_nil _ (by simp) (fun t ht => (hgood t ht).1)
      · rcases mem_setString _ _ _ _ _ hkw1 with ⟨hk, hw⟩ | hkw2
        · subst hk
          exact ⟨by rw [hw]; exact serializeCode_ne_nil p v b,
            Or.inr ⟨truncName n, by simp, Or.inl rfl⟩⟩
        · have h5k := h5 k w hkw2
          refine ⟨h5k.1, ?_⟩
          rcases h5k.2 with he | ⟨t, ht, hor⟩
          · exact Or.inl he
          · exact Or.inr ⟨t, List.mem_append.mpr (Or.inl ht), hor⟩

theorem inv_saveRaw (st : Store) (n : List Char) (d : List Nat)
    (hn : validCodeName n) (hInv : Inv st) : Inv (saveRawCode st n d) := by
  cases hd : d.isEmpty with
  | true =>
    simp only [saveRawCode, hd, if_true]
    exact hInv
  | false =>
    by_cases hsz : 3900 < (rawSerialize d).length
    · have hg : ¬(256 ≤ 4 + (truncName n).length) := by
        have := truncName_length_le n
        omega
      simp only [saveRawCode, hd, Bool.false_eq_true, if_false, hg, hsz, if_true]
      exact hInv
    · obtain ⟨L, h1, h2, h3, h4, h5, h6⟩ := hInv
      obtain ⟨hne0, hnc0, hnl⟩ := hn
      have htnn : truncName n ≠ [] := truncName_ne_nil n hne0
      have htnc : ',' ∉ truncName n := not_mem_truncName n ',' hnc0
      have htnl : (truncName n).length ≤ 10 := truncName_length_le n
      have hrkidx : rawPfx ++ truncName n ≠ idxKey := rawKey_ne_idxKey _
      have hrsne : rawSerialize d ≠ [] := by
        unfold rawSerialize
        intro h
        exact natRepr_ne_nil _ (List.append_eq_nil.mp h).1
      have htoks : splitTokens (getString st idxKey []) = L := by
        rw [h1]
        exact splitTokens_joinComma L (fun t ht => ⟨(h2 t ht).1, (h2 t ht).2.1⟩)
      rw [saveRawCode_cases st n d hd hsz, htoks]
      by_cases hmem : truncName n ∈ L
      · have hany : L.any (fun t => truncName t == truncName n) = true :=
          List.any_eq_true.mpr ⟨truncName n, hmem,
            by rw [truncName_idem]; exact beq_self_eq_true _⟩
        rw [if_pos hany]
        refine ⟨L, ?_, h2, h3, ?_, ?_, keysNodup_setString st _ _ h6⟩
        · rw [getString_setString_ne _ _ _ _ _ hrkidx]
          exact h1
        · intro t htL
          by_cases hte : t = truncName n
          · subst hte
            right
            rw [getString_setString_self]
            exact hrsne
          · have hrr : rawPfx ++ truncName n ≠ rawPfx ++ t := fun he =>
              hte (rawKey_inj _ _ he).symm
            have hrc : rawPfx ++ truncName n ≠ codePfx ++ t := fun he =>
              codeKey_ne_rawKey t (truncName n) he.symm
            rcases h4 t htL with hrec | hrec
            · left
              rw [getString_setString_ne _ _ _ _ _ hrc]
              exact hrec
            · right
              rw [getString_setString_ne _ _ _ _ _ hrr]
              exact hrec
        · intro k w hkw
          rcases mem_setString _ _ _ _ _ hkw with ⟨hk, hw⟩ | hkw1
          · subst hk
            exact ⟨by rw [hw]; exact hrsne,
              Or.inr ⟨truncName n, hmem, Or.inr rfl⟩⟩
          · exact h5 k w hkw1
      · have hany : L.any (fun t => truncName t == truncName n) = false := by
          cases hA : L.any (fun t => truncName t == truncName n) with
          | false => rfl
          | true =>
            exfalso
            rcases List.any_eq_true.mp hA with ⟨t, ht, hbe⟩
            have hts : truncName t = t := truncName_eq_self t ((h2 t ht).2.2.1)
            rw [hts] at hbe
            exact hmem (by rw [← eq_of_beq hbe]; exact ht)
        rw [if_neg (by rw [hany]; simp)]
        have hval : (if (getString st idxKey []).isEmpty = true then truncName n
            else getString st idxKey [] ++ ',' :: truncName n)
            = joinComma (L ++ [truncName n]) := by
          rw [joinComma_append_single]
          by_cases hL : L = []
          · subst hL
            rw [h1]
            simp [joinComma]
          · rw [if_neg hL]
            have hjne : joinComma L ≠ [] :=
              joinComma_ne_nil L hL (fun t ht => (h2 t ht).1)
            have hie : (getString st idxKey []).isEmpty = false := by
              rw [h1]
              cases hj : joinComma L with
              | nil => exact absurd hj hjne
              | cons a as => rfl
            rw [hie, h1]
            simp
        rw [hval]
        have hgood : ∀ t ∈ L ++ [truncName n], goodTok t := by
          intro t ht
          rcases List.mem_append.mp ht with htL | ht1
          · exact h2 t htL
          · rw [List.mem_singleton] at ht1
            subst ht1
            exact ⟨htnn, htnc, htnl, hnl⟩
        refine ⟨L ++ [truncName n], getString_setString_self _ _ _ _, hgood, ?_, ?_, ?_,
          keysNodup_setString _ _ _ (keysNodup_setString _ _ _ h6)⟩
        · rw [List.nodup_append]
          refine ⟨h3, List.nodup_singleton _, ?_⟩
          intro a ha hb2
          rw [List.mem_singleton] at hb2
          subst hb2
          exact hmem ha
        · intro t ht
          rcases List.mem_append.mp ht with htL | ht1
          · have htne : t ≠ truncName n := fun he => hmem (he ▸ htL)
            have hgt := h2 t htL
            have hcne : idxKey ≠ codePfx ++ t := fun he =>
              hgt.2.2.2 ((codeKey_eq_idxKey_iff t).mp he.symm)
            have hrc : rawPfx ++ truncName n ≠ codePfx ++ t := fun he =>
              codeKey_ne_rawKey t (truncName n) he.symm
            have hrne : idxKey ≠ rawPfx ++ t := fun he => rawKey_ne_idxKey t he.symm
            have hrr : rawPfx ++ truncName n ≠ rawPfx ++ t := fun he =>
              htne (rawKey_inj _ _ he).symm
            rcases h4 t htL with hrec | hrec
            · left
              rw [getString_setString_ne _ _ _ _ _ hcne,
                getString_setString_ne _ _ _ _ _ hrc]
              exact hrec
            · right
              rw [getString_setString_ne _ _ _ _ _ hrne,
                getString_setString_ne _ _ _ _ _ hrr]
              exact hrec
          · rw [List.mem_singleton] at ht1
            subst ht1
            right
            rw [getString_setString_ne _ _ _ _ _ (Ne.symm hrkidx),
              getString_setString_self]
            exact hrsne
        · intro k w hkw
          rcases mem_setString _ _ _ _ _ hkw with ⟨hk, hw⟩ | hkw1
          · subst hk
            refine ⟨?_, Or.inl rfl⟩
            rw [hw]
            exact joinComma_ne_nil _ (by simp) (fun t ht => (hgood t ht).1)
          · rcases mem_setString _ _ _ _ _ hkw1 with ⟨hk, hw⟩ | hkw2
            · subst hk
              exact ⟨by rw [hw]; exact hrsne,
                Or.inr ⟨truncName n, by simp, Or.inr rfl⟩⟩
            · have h5k := h5 k w hkw2
              refine ⟨h5k.1, ?_⟩
              rcases h5k.2 with he | ⟨t, ht, hor⟩
              · exact Or.inl he
              · exact Or.inr ⟨t, List.mem_append.mpr (Or.inl ht), hor⟩

theorem inv_indexPhase (st E : Store) (tn : List Char) (hln : tn ≠ listTok)
    (hInv : Inv st)
    (hmemE : ∀ k v, (k, v) ∈ E → (k, v) ∈ st)
    (hndE : (E.map Prod.fst).Nodup)
    (hidx : getString E idxKey [] = getString st idxKey [])
    (hpres : ∀ k, k ≠ codePfx ++ tn → k ≠ rawPfx ++ tn →
      getString E k [] = getString st k [])
    (habsC : getString E (codePfx ++ tn) [] = [])
    (habsR : getString E (rawPfx ++ tn) [] = []) :
    Inv (if (getString E idxKey []).isEmpty = true then (true, E)
         else if (splitTokens (getString E idxKey [])).any
             (fun t => truncName t == tn) = false then (true, E)
         else if ((splitTokens (getString E idxKey [])).filter
             (fun t => !(truncName t == tn) && !t.isEmpty)).isEmpty = true
           then (true, eraseKey E idxKey)
         else (true, setString E idxKey
            (joinComma ((splitTokens (getString E idxKey [])).filter
              (fun t => !(truncName t == tn) && !t.isEmpty))))).2 := by
  obtain ⟨L, h1, h2, h3, h4, h5, h6⟩ := hInv
  have h1E : getString E idxKey [] = joinComma L := by rw [hidx, h1]
  have htoksE : splitTokens (getString E idxKey []) = L := by
    rw [h1E]
    exact splitTokens_joinComma L (fun t ht => ⟨(h2 t ht).1, (h2 t ht).2.1⟩)
  have hrecE : ∀ t ∈ L, t ≠ tn → hasRecordKeys E t := by
    intro t htL htne
    have hcc : codePfx ++ t ≠ codePfx ++ tn := fun he => htne (codeKey_inj _ _ he)
    have hcr : codePfx ++ t ≠ rawPfx ++ tn := codeKey_ne_rawKey t tn
    have hrc : rawPfx ++ t ≠ codePfx ++ tn := fun he =>
      codeKey_ne_rawKey tn t he.symm
    have hrr : rawPfx ++ t ≠ rawPfx ++ tn := fun he => htne (rawKey_inj _ _ he)
    rcases h4 t htL with hrec | hrec
    · left
      rw [hpres _ hcc hcr]
      exact hrec
    · right
      rw [hpres _ hrc hrr]
      exact hrec
  by_cases hb0 : (getString E idxKey []).isEmpty = true
  · rw [if_pos hb0]
    have hLnil : L = [] := by
      by_contra hL
      have hjne := joinComma_ne_nil L hL (fun t ht => (h2 t ht).1)
      rw [h1E] at hb0
      exact hjne (List.isEmpty_iff.mp hb0)
    subst hLnil
    refine ⟨[], h1E, by simp, List.nodup_nil, by simp, ?_, hndE⟩
    intro k v hkv
    have h5k := h5 k v (hmemE k v hkv)
    refine ⟨h5k.1, ?_⟩
    rcases h5k.2 with he | ⟨t, ht, _⟩
    · exact Or.inl he
    · simp at ht
  · rw [if_neg hb0]
    by_cases hb1 : (splitTokens (getString E idxKey [])).any
        (fun t => truncName t == tn) = false
    · rw [if_pos hb1]
      rw [htoksE] at hb1
      have hmemtn : tn ∉ L := by
        intro hmem
        have hts : truncName tn = tn := truncName_eq_self tn ((h2 tn hmem).2.2.1)
        have hA : L.any (fun t => truncName t == tn) = true :=
          List.any_eq_true.mpr ⟨tn, hmem, by rw [hts]; exact beq_self_eq_true _⟩
        rw [hb1] at hA
        exact Bool.false_ne_true hA
      refine ⟨L, h1E, h2, h3, ?_, ?_, hndE⟩
      · intro t htL
        exact hrecE t htL (fun he => hmemtn (he ▸ htL))
      · intro k v hkv
        exact h5 k v (hmemE k v hkv)
    · have hb1' : (splitTokens (getString E idxKey [])).any
          (fun t => truncName t == tn) = true := by
        revert hb1
        cases (splitTokens (getString E idxKey [])).any
          (fun t => truncName t == tn) <;> simp
      rw [if_neg hb1]
      have htnL : tn ∈ L := by
        rw [htoksE] at hb1'
        rcases List.any_eq_true.mp hb1' with ⟨t, ht, hbe⟩
        have hts : truncName t = t := truncName_eq_self t ((h2 t ht).2.2.1)
        rw [hts] at hbe
        rw [← eq_of_beq hbe]
        exact ht
      have hkept : (splitTokens (getString E idxKey [])).filter
          (fun t => !(truncName t == tn) && !t.isEmpty)
          = L.filter (fun t => !(t == tn)) := by
        rw [htoksE]
        apply List.filter_congr
        intro t ht
        have hts : truncName t = t := truncName_eq_self t ((h2 t ht).2.2.1)
        have hie : t.isEmpty = false := by
          have hne := (h2 t ht).1
          cases t with
          | nil => exact absurd rfl hne
          | cons a as => rfl
        rw [hts, hie]
        simp
      rw [hkept]
      by_cases hb2 : (L.filter (fun t => !(t == tn))).isEmpty = true
      · rw [if_pos hb2]
        have hker : L.filter (fun t => !(t == tn)) = [] := List.isEmpty_iff.mp hb2
        have hall : ∀ t ∈ L, t = tn := by
          intro t ht
          by_contra hne2
          have hpt : (!(t == tn)) = true := by
            rw [beq_eq_false_iff_ne.mpr hne2]
            rfl
          have hmf : t ∈ L.filter (fun t => !(t == tn)) :=
            List.mem_filter.mpr ⟨ht, hpt⟩
          rw [hker] at hmf
          simp at hmf
        have hLtn : L = [tn] := by
          cases L with
          | nil => simp at htnL
          | cons a as =>
            have ha : a = tn := hall a (by simp)
            cases as with
            | nil => rw [ha]
            | cons b bs =>
              have hb' : b = tn := hall b (by simp)
              rw [List.nodup_cons] at h3
              exact absurd (by rw [ha, hb']; exact List.mem_cons_self tn bs) h3.1
        refine ⟨[], by rw [getString_eraseKey_self]; rfl, by simp, List.nodup_nil,
          by simp, ?_, keysNodup_eraseKey E idxKey hndE⟩
        intro k v hkv
        obtain ⟨hkE, hkne⟩ := mem_eraseKey E k v idxKey hkv
        have h5k := h5 k v (hmemE k v hkE)
        refine ⟨h5k.1, ?_⟩
        exfalso
        rcases h5k.2 with he | ⟨t, ht, he | he⟩
        · exact hkne he
        · rw [hLtn, List.mem_singleton] at ht
          subst ht
          have hgv := getString_eq_of_mem E k v [] hndE hkE
          rw [he, habsC] at hgv
          exact h5k.1 hgv.symm
        · rw [hLtn, List.mem_singleton] at ht
          subst ht
          have hgv := getString_eq_of_mem E k v [] hndE hkE
          rw [he, habsR] at hgv
          exact h5k.1 hgv.symm
      · rw [if_neg hb2]
        have hkeptne : L.filter (fun t => !(t == tn)) ≠ [] := by
          intro he
          rw [he] at hb2
          exact hb2 rfl
        have hmemkept : ∀ t, t ∈ L.filter (fun t => !(t == tn)) ↔ t ∈ L ∧ t ≠ tn := by
          intro t
          rw [List.mem_filter]
          constructor
          · rintro ⟨h, hp⟩
            refine ⟨h, ?_⟩
            intro he
            rw [he] at hp
            simp at hp
          · rintro ⟨h, hne2⟩
            exact ⟨h, by rw [beq_eq_false_iff_ne.mpr hne2]; rfl⟩
        refine ⟨L.filter (fun t => !(t == tn)), getString_setString_self _ _ _ _,
          ?_, h3.filter _, ?_, ?_, keysNodup_setString _ _ _ hndE⟩
        · intro t ht
          exact h2 t ((hmemkept t).mp ht).1
        · intro t ht
          obtain ⟨htL, htne⟩ := (hmemkept t).mp ht
          have hgt := h2 t htL
          have hcne : idxKey ≠ codePfx ++ t := fun he =>
            hgt.2.2.2 ((codeKey_eq_idxKey_iff t).mp he.symm)
          have hrne : idxKey ≠ rawPfx ++ t := fun he => rawKey_ne_idxKey t he.symm
          rcases hrecE t htL htne with hrec | hrec
          · left
            rw [getString_setString_ne _ _ _ _ _ hcne]
            exact hrec
          · right
            rw [getString_setString_ne _ _ _ _ _ hrne]
            exact hrec
        · intro k v hkv
          rcases mem_setString _ _ _ _ _ hkv with ⟨hk, hv⟩ | hkE
          · subst hk
            refine ⟨?_, Or.inl rfl⟩
            rw [hv]
            exact joinComma_ne_nil _ hkeptne
              (fun t ht => (h2 t ((hmemkept t).mp ht).1).1)
          · have h5k := h5 k v (hmemE k v hkE)
            refine ⟨h5k.1, ?_⟩
            rcases h5k.2 with he | ⟨t, ht, he⟩
            · exact Or.inl he
            · by_cases httn : t = tn
              · subst httn
                exfalso
                rcases he with he | he
                · have hgv := getString_eq_of_mem E k v [] hndE hkE
                  rw [he, habsC] at hgv
                  exact h5k.1 hgv.symm
                · have hgv := getString_eq_of_mem E k v [] hndE hkE
                  rw [he, habsR] at hgv
                  exact h5k.1 hgv.symm
              · exact Or.inr ⟨t, (hmemkept t).mpr ⟨ht, httn⟩, he⟩

theorem inv_del (st : Store) (n : List Char) (hn : validCodeName n)
    (hInv : Inv st) : Inv (deleteLearnedCode st n).2 := by
  obtain ⟨L, h1, h2, h3, h4, h5, h6⟩ := hInv
  have hInv' : Inv st := ⟨L, h1, h2, h3, h4, h5, h6⟩
  obtain ⟨hne0, hnc0, hnl⟩ := hn
  have hg : ¬(16 ≤ 5 + (truncName n).length) := by
    have := truncName_length_le n
    omega
  have hck : codePfx ++ truncName n ≠ idxKey := fun he =>
    hnl ((codeKey_eq_idxKey_iff _).mp he)
  have hrk : rawPfx ++ truncName n ≠ idxKey := rawKey_ne_idxKey _
  have hcr : codePfx ++ truncName n ≠ rawPfx ++ truncName n :=
    codeKey_ne_rawKey _ _
  simp only [deleteLearnedCode, hg, if_false]
  by_cases hb : ((getString st (codePfx ++ truncName n) []).isEmpty &&
      (getString st (rawPfx ++ truncName n) []).isEmpty) = true
  · rw [if_pos hb]
    exact hInv'
  · rw [if_neg hb]
    apply inv_indexPhase st _ (truncName n) hnl hInv'
    · intro k v hkv
      by_cases hr : (getString st (rawPfx ++ truncName n) []).isEmpty = true
      · rw [if_pos hr] at hkv
        by_cases hc : (getString st (codePfx ++ truncName n) []).isEmpty = true
        · rw [if_pos hc] at hkv
          exact hkv
        · rw [if_neg hc] at hkv
          exact (mem_eraseKey _ _ _ _ hkv).1
      · rw [if_neg hr] at hkv
        have hkv1 := (mem_eraseKey _ _ _ _ hkv).1
        by_cases hc : (getString st (codePfx ++ truncName n) []).isEmpty = true
        · rw [if_pos hc] at hkv1
          exact hkv1
        · rw [if_neg hc] at hkv1
          exact (mem_eraseKey _ _ _ _ hkv1).1
    · by_cases hr : (getString st (rawPfx ++ truncName n) []).isEmpty = true
      · rw [if_pos hr]
        by_cases hc : (getString st (codePfx ++ truncName n) []).isEmpty = true
        · rw [if_pos hc]
          exact h6
        · rw [if_neg hc]
          exact keysNodup_eraseKey _ _ h6
      · rw [if_neg hr]
        by_cases hc : (getString st (codePfx ++ truncName n) []).isEmpty = true
        · rw [if_pos hc]
          exact keysNodup_eraseKey _ _ h6
        · rw [if_neg hc]
          exact keysNodup_eraseKey _ _ (keysNodup_eraseKey _ _ h6)
    · by_cases hr : (getString st (rawPfx ++ truncName n) []).isEmpty = true
      · rw [if_pos hr]
        by_cases hc : (getString st (codePfx ++ truncName n) []).isEmpty = true
        · rw [if_pos hc]
        · rw [if_neg hc]
          exact getString_eraseKey_ne _ _ _ _ hck
      · rw [if_neg hr]
        rw [getString_eraseKey_ne _ _ _ _ hrk]
        by_cases hc : (getString st (codePfx ++ truncName n) []).isEmpty = true
        · rw [if_pos hc]
        · rw [if_neg hc]
          exact getString_eraseKey_ne _ _ _ _ hck
    · intro k hkc hkr
      by_cases hr : (getString st (rawPfx ++ truncName n) []).isEmpty = true
      · rw [if_pos hr]
        by_cases hc : (getString st (codePfx ++ truncName n) []).isEmpty = true
        · rw [if_pos hc]
        · rw [if_neg hc]
          exact getString_eraseKey_ne _ _ _ _ (Ne.symm hkc)
      · rw [if_neg hr]
        rw [getString_eraseKey_ne _ _ _ _ (Ne.symm hkr)]
        by_cases hc : (getString st (codePfx ++ truncName n) []).isEmpty = true
        · rw [if_pos hc]
        · rw [if_neg hc]
          exact getString_eraseKey_ne _ _ _ _ (Ne.symm hkc)
    · by_cases hr : (getString st (rawPfx ++ truncName n) []).isEmpty = true
      · rw [if_pos hr]
        by_cases hc : (getString st (codePfx ++ truncName n) []).isEmpty = true
        · rw [if_pos hc]
          exact List.isEmpty_iff.mp hc
        · rw [if_neg hc]
          exact getString_eraseKey_self _ _ _
      · rw [if_neg hr]
        rw [getString_eraseKey_ne _ _ _ _ (Ne.symm hcr)]
        by_cases hc : (getString st (codePfx ++ truncName n) []).isEmpty = true
        · rw [if_pos hc]
          exact List.isEmpty_iff.mp hc
        · rw [if_neg hc]
          exact getString_eraseKey_self _ _ _
    · by_cases hr : (getString st (rawPfx ++ truncName n) []).isEmpty = true
      · rw [if_pos hr]
        by_cases hc : (getString st (codePfx ++ truncName n) []).isEmpty = true
        · rw [if_pos hc]
          exact List.isEmpty_iff.mp hr
        · rw [if_neg hc]
          rw [getString_eraseKey_ne _ _ _ _ hcr]
          exact List.isEmpty_iff.mp hr
      · rw [if_neg hr]
        exact getString_eraseKey_self _ _ _

theorem inv_applyOps (st : Store) (ops : List StoreOp) (hInv : Inv st)
    (h : okOps st ops) : Inv (applyOps st ops) := by
  induction ops generalizing st with
  | nil => exact hInv
  | cons op ops ih =>
    obtain ⟨hop, hops⟩ := h
    show Inv (applyOps (applyOp st op) ops)
    refine ih (applyOp st op) ?_ hops
    cases op with
    | save n p v b => exact inv_save st n p v b hop.1 hop.2 hInv
    | saveRaw n d => exact inv_saveRaw st n d hop hInv
    | del n => exact inv_del st n hop hInv

theorem inv_conclusions (st : Store) (hInv : Inv st) :
    listedNames st = indexTokens st
    ∧ (indexTokens st).Nodup
    ∧ ∀ n, truncName n ≠ listTok →
        (loadFound st n = true ↔ truncName n ∈ indexTokens st) := by
  obtain ⟨L, h1, h2, h3, h4, h5, h6⟩ := hInv
  have htoks : indexTokens st = L := by
    rw [indexTokens, h1]
    exact splitTokens_joinComma L (fun t ht => ⟨(h2 t ht).1, (h2 t ht).2.1⟩)
  refine ⟨?_, by rw [htoks]; exact h3, ?_⟩
  · rw [listedNames, htoks]
    apply List.filter_eq_self.mpr
    intro t ht
    have hgt := h2 t ht
    have h1e : t.isEmpty = false := by
      have hne := hgt.1
      cases t with
      | nil => exact absurd rfl hne
      | cons a as => rfl
    have h2e : 5 + t.length < 256 := by
      have := hgt.2.2.1
      omega
    rcases h4 t ht with hrec | hrec
    · have hcc : (getString st (codePfx ++ t) []).isEmpty = false := by
        cases hcv : getString st (codePfx ++ t) [] with
        | nil => exact absurd hcv hrec
        | cons a as => rfl
      simp [h1e, h2e, hcc]
    · have hcc : (getString st (rawPfx ++ t) []).isEmpty = false := by
        cases hcv : getString st (rawPfx ++ t) [] with
        | nil => exact absurd hcv hrec
        | cons a as => rfl
      simp [h1e, h2e, hcc]
  · intro n hln
    rw [htoks]
    unfold loadFound
    constructor
    · intro hl
      have hrec : hasRecordKeys st (truncName n) := by
        rcases (Bool.or_eq_true _ _).mp hl with hh | hh
        · left
          intro he
          rw [he] at hh
          simp at hh
        · right
          intro he
          rw [he] at hh
          simp at hh
      exact inv_record_mem st L h5 (truncName n) hln hrec
    · intro hmem
      rcases h4 (truncName n) hmem with hrec | hrec
      · have hcc : (getString st (codePfx ++ truncName n) []).isEmpty = false := by
          cases hcv : getString st (codePfx ++ truncName n) [] with
          | nil => exact absurd hcv hrec
          | cons a as => rfl
        simp [hcc]
      · have hcc : (getString st (rawPfx ++ truncName n) []).isEmpty = false := by
          cases hcv : getString st (rawPfx ++ truncName n) [] with
          | nil => exact absurd hcv hrec
          | cons a as => rfl
        simp [hcc]

/-- Claim C1 counterexample: the index-consistency claim fails as stated on
the very first operation when the saved name contains a comma.  After
`Save("a,b")` on an empty store, Load finds the stored record (key
`code_a,b`), yet the index string `a,b` tokenizes into `a` and `b`, neither
of which has a backing record, so GetLearnedCodes lists nothing: Load
succeeds for a name List does not return. -/
theorem claim_C1_counterexample :
    loadFound (saveLearnedCode [] [ 'a', ',', 'b' ] 3 9 32) [ 'a', ',', 'b' ] = true
    ∧ listedNames (saveLearnedCode [] [ 'a', ',', 'b' ] 3 9 32) = []
    ∧ indexTokens (saveLearnedCode [] [ 'a', ',', 'b' ] 3 9 32)
        = [[ 'a' ], [ 'b' ]] := by
  decide

/-- Claim C1 (amended): starting from the empty store, after any finite
sequence of Save/SaveRaw/Delete operations whose names are nonempty,
comma-free and do not truncate to the reserved token `list`, and whose
plain saves respect the capacity precondition, the rendered name list of
GetLearnedCodes is exactly the duplicate-free index token list, and — for
every name that does not truncate to `list` — Load succeeds exactly when
the truncated name is an index token. -/
theorem claim_C1_amended (ops : List StoreOp) (h : okOps [] ops) :
    listedNames (applyOps [] ops) = indexTokens (applyOps [] ops)
    ∧ (indexTokens (applyOps [] ops)).Nodup
    ∧ ∀ n, truncName n ≠ listTok →
        (loadFound (applyOps [] ops) n = true
          ↔ truncName n ∈ indexTokens (applyOps [] ops)) :=
  inv_conclusions _ (inv_applyOps [] ops inv_empty h)

theorem claim_C1_amended_witness :
    listedNames (applyOps [] demoOps) = indexTokens (applyOps [] demoOps)
    ∧ (indexTokens (applyOps [] demoOps)).Nodup
    ∧ ∀ n, truncName n ≠ listTok →
        (loadFound (applyOps [] demoOps) n = true
          ↔ truncName n ∈ indexTokens (applyOps [] demoOps)) :=
  claim_C1_amended demoOps (by decide)

end IrCodes
